import Mathlib

/-!
Verification of the German Letter Analyzer API (`src/main.py`).

The development shallowly embeds the request pipeline of the single
`POST /analyze-letter/` endpoint:

* the Python string operations `str.strip`, `str.replace` used by the
  response decoder (`main.py` line 106) are modelled on `List Char`;
* `json.loads` (line 107) is modelled by an executable recursive-descent
  JSON parser `json_loads` following the grammar accepted by Python's
  `json` module (standard JSON plus the `NaN` / `Infinity` constants);
* the external collaborators (PyMuPDF `fitz.open`, `PIL.Image.open`,
  the Gemini `generate_content` call) are modelled as components of an
  environment record, since their behaviour is outside the repository;
* the endpoint `analyze_letter` itself is a pure function from an
  environment and an uploaded file to a trace of observable events plus
  an HTTP outcome.
-/

set_option maxHeartbeats 1000000

namespace LetterAnalyzer

/-! ### Character classes -/

/-- The backtick character, written by code point. -/
def tick : Char := '\x60'

/-- JSON whitespace as accepted by Python's `json.loads`
(space, tab, line feed, carriage return). -/
def isJsonWs (c : Char) : Bool := c = ' ' || c = '\t' || c = '\n' || c = '\r'

/-- Code points treated as whitespace by Python's no-argument `str.strip`
(ASCII whitespace, the ASCII separator controls, and the common Unicode
space code points). -/
def pyWsCodes : List Nat :=
  [9, 10, 11, 12, 13, 28, 29, 30, 31, 32, 133, 160, 5760,
   8192, 8193, 8194, 8195, 8196, 8197, 8198, 8199, 8200, 8201, 8202,
   8232, 8233, 8239, 8287, 12288]

/-- Whitespace test of Python's `str.strip`. -/
def isPyWs (c : Char) : Bool := pyWsCodes.contains c.toNat

/-! ### Python string operations (`str.strip`, `str.replace`) -/

/-- `leadsWith pat s` holds when `pat` is an initial segment of `s`. -/
def leadsWith : List Char → List Char → Bool
  | [], _ => true
  | _ :: _, [] => false
  | p :: ps, c :: cs => p == c && leadsWith ps cs

/-- Fuelled worker for `replaceAll`; the fuel is always instantiated with
the length of the input, which suffices because every step consumes at
least one character. -/
def replaceAllGo (pat rep : List Char) : Nat → List Char → List Char
  | _, [] => []
  | 0, s => s
  | fuel + 1, c :: cs =>
    if leadsWith pat (c :: cs) then
      rep ++ replaceAllGo pat rep fuel (List.drop (pat.length - 1) cs)
    else
      c :: replaceAllGo pat rep fuel cs

/-- Python's `str.replace pat rep` for a non-empty pattern: replace every
occurrence, scanning left to right, without rescanning the replacement. -/
def replaceAll (pat rep s : List Char) : List Char :=
  replaceAllGo pat rep s.length s

/-- Python's `str.strip()` restricted to the left edge. -/
def lstrip (s : List Char) : List Char := s.dropWhile isPyWs

/-- Python's `str.strip()`: drop leading and trailing whitespace. -/
def pyStrip (s : List Char) : List Char :=
  ((lstrip s).reverse.dropWhile isPyWs).reverse

/-! ### JSON values and the `json.loads` parser -/

/-- Parsed JSON values.  Number literals keep their source token (their
numeric value is never inspected by the pipeline); strings are decoded
to code points, with `\\uXXXX` escapes kept as single code units. -/
inductive J where
  | null : J
  | bool (b : Bool) : J
  | num (lit : List Char) : J
  | str (codes : List Nat) : J
  | arr (elems : List J) : J
  | obj (members : List (List Nat × J)) : J

/-- Value of one hexadecimal digit. -/
def hexVal (c : Char) : Option Nat :=
  if '0' ≤ c ∧ c ≤ '9' then some (c.toNat - 48)
  else if 'a' ≤ c ∧ c ≤ 'f' then some (c.toNat - 87)
  else if 'A' ≤ c ∧ c ≤ 'F' then some (c.toNat - 55)
  else none

/-- Code point produced by a single-character JSON escape. -/
def escCode (c : Char) : Option Nat :=
  if c = '\"' then some 34
  else if c = '\\' then some 92
  else if c = '/' then some 47
  else if c = 'b' then some 8
  else if c = 'f' then some 12
  else if c = 'n' then some 10
  else if c = 'r' then some 13
  else if c = 't' then some 9
  else none

/-- Parse the body of a JSON string, starting just after the opening
quote, up to and including the closing quote.  Raw control characters
are rejected, as in Python's strict mode. -/
def parseStr : List Char → Option (List Nat × List Char)
  | [] => none
  | c :: cs =>
    if c = '\"' then some ([], cs)
    else if c = '\\' then
      match cs with
      | [] => none
      | e :: cs' =>
        if e = 'u' then
          match cs' with
          | a :: b :: c2 :: d :: cs'' =>
            match hexVal a, hexVal b, hexVal c2, hexVal d with
            | some ha, some hb, some hc, some hd =>
              match parseStr cs'' with
              | some (codes, rest) =>
                some ((((ha * 16 + hb) * 16 + hc) * 16 + hd) :: codes, rest)
              | none => none
            | _, _, _, _ => none
          | _ => none
        else
          match escCode e with
          | some n =>
            match parseStr cs' with
            | some (codes, rest) => some (n :: codes, rest)
            | none => none
          | none => none
    else if c.toNat < 32 then none
    else
      match parseStr cs with
      | some (codes, rest) => some (c.toNat :: codes, rest)
      | none => none

/-- Characters that could combine with the end of a complete or
partially consumed JSON number token. -/
def isNumCont (c : Char) : Bool :=
  c.isDigit || c = '.' || c = 'e' || c = 'E' || c = '+' || c = '-'

/-- `numSafeHead y` holds when prepending nothing of `y` can extend a
number token: `y` is empty or starts with a non-continuation character. -/
def numSafeHead : List Char → Bool
  | [] => true
  | c :: _ => !(isNumCont c)

/-- Integer-part digit run of a JSON number: non-empty, and no leading
zero unless the run is exactly `0`. -/
def intDigitsOk : List Char → Bool
  | [] => false
  | ['0'] => true
  | '0' :: _ :: _ => false
  | _ :: _ => true

/-- Optional fractional part `.digits` of a JSON number; returns the
consumed token part and the remainder (consuming nothing on no match,
like the optional regex group in Python's scanner). -/
def fracPart (s : List Char) : List Char × List Char :=
  match s with
  | '.' :: r =>
    let fs := r.takeWhile Char.isDigit
    if fs.isEmpty then ([], s) else ('.' :: fs, r.dropWhile Char.isDigit)
  | _ => ([], s)

/-- Optional exponent part `(e|E)(+|-)?digits` of a JSON number. -/
def expPart (s : List Char) : List Char × List Char :=
  match s with
  | e :: r =>
    if e = 'e' || e = 'E' then
      match r with
      | c :: r' =>
        if c = '+' || c = '-' then
          let es := r'.takeWhile Char.isDigit
          if es.isEmpty then ([], s) else (e :: c :: es, r'.dropWhile Char.isDigit)
        else
          let es := r.takeWhile Char.isDigit
          if es.isEmpty then ([], s) else (e :: es, r.dropWhile Char.isDigit)
      | [] => ([], s)
    else ([], s)
  | [] => ([], s)

/-- Unsigned JSON number token starting at `s`. -/
def parseNumBody (s : List Char) : Option (List Char × List Char) :=
  let ds := s.takeWhile Char.isDigit
  let r1 := s.dropWhile Char.isDigit
  if intDigitsOk ds then
    let fr := fracPart r1
    let ex := expPart fr.2
    some (ds ++ fr.1 ++ ex.1, ex.2)
  else none

/-- JSON number token with optional leading minus sign. -/
def parseNumFrom (s : List Char) : Option (List Char × List Char) :=
  match s with
  | '-' :: r =>
    match parseNumBody r with
    | some (tok, rest) => some ('-' :: tok, rest)
    | none => none
  | _ => parseNumBody s

/-- Requests of the combined parser: a single value, the element list of
an array (after `[` and leading whitespace), or the member list of an
object (after `{` and leading whitespace). -/
inductive PReq where
  | val | elems | members

/-- Results of the combined parser, one per request kind. -/
inductive PRes where
  | v (x : J)
  | vs (xs : List J)
  | ms (xs : List (List Nat × J))

/-- Skip JSON whitespace. -/
def skipWs (s : List Char) : List Char := s.dropWhile isJsonWs

/-- Match a literal keyword tail and produce its value. -/
def expectLit (lit : List Char) (x : J) (r : List Char) : Option (PRes × List Char) :=
  if leadsWith lit r then some (PRes.v x, r.drop lit.length) else none

/-- The token tail of `Infinity` after its first character. -/
def infTail : List Char := ['n', 'f', 'i', 'n', 'i', 't', 'y']

/-- Recursive-descent parser for the grammar accepted by Python's
`json.loads` (JSON values plus `NaN`, `Infinity` and `-Infinity`).
The fuel argument decreases at every nested call; `json_loads` supplies
a fuel that is always sufficient. -/
def parseMut : Nat → PReq → List Char → Option (PRes × List Char)
  | 0, _, _ => none
  | f + 1, PReq.val, s =>
    match s with
    | [] => none
    | c :: r =>
      if c = 'n' then expectLit ['u', 'l', 'l'] J.null r
      else if c = 't' then expectLit ['r', 'u', 'e'] (J.bool true) r
      else if c = 'f' then expectLit ['a', 'l', 's', 'e'] (J.bool false) r
      else if c = 'N' then expectLit ['a', 'N'] (J.num ['N', 'a', 'N']) r
      else if c = 'I' then expectLit infTail (J.num ('I' :: infTail)) r
      else if c = '\"' then
        match parseStr r with
        | some (codes, rest) => some (PRes.v (J.str codes), rest)
        | none => none
      else if c = '\x7b' then
        match skipWs r with
        | '\x7d' :: r2 => some (PRes.v (J.obj []), r2)
        | r2 =>
          match parseMut f PReq.members r2 with
          | some (PRes.ms xs, rest) => some (PRes.v (J.obj xs), rest)
          | _ => none
      else if c = '[' then
        match skipWs r with
        | ']' :: r2 => some (PRes.v (J.arr []), r2)
        | r2 =>
          match parseMut f PReq.elems r2 with
          | some (PRes.vs xs, rest) => some (PRes.v (J.arr xs), rest)
          | _ => none
      else if c = '-' then
        if leadsWith ('I' :: infTail) r then
          some (PRes.v (J.num ('-' :: 'I' :: infTail)), r.drop 8)
        else
          match parseNumFrom (c :: r) with
          | some (tok, rest) => some (PRes.v (J.num tok), rest)
          | none => none
      else
        match parseNumFrom (c :: r) with
        | some (tok, rest) => some (PRes.v (J.num tok), rest)
        | none => none
  | f + 1, PReq.elems, s =>
    match parseMut f PReq.val s with
    | some (PRes.v x, r) =>
      match skipWs r with
      | ',' :: r2 =>
        match parseMut f PReq.elems (skipWs r2) with
        | some (PRes.vs xs, rest) => some (PRes.vs (x :: xs), rest)
        | _ => none
      | ']' :: r2 => some (PRes.vs [x], r2)
      | _ => none
    | _ => none
  | f + 1, PReq.members, s =>
    match s with
    | '\"' :: r =>
      match parseStr r with
      | some (key, r1) =>
        match skipWs r1 with
        | ':' :: r2 =>
          match parseMut f PReq.val (skipWs r2) with
          | some (PRes.v x, r3) =>
            match skipWs r3 with
            | ',' :: r4 =>
              match parseMut f PReq.members (skipWs r4) with
              | some (PRes.ms xs, rest) => some (PRes.ms ((key, x) :: xs), rest)
              | _ => none
            | '\x7d' :: r4 => some (PRes.ms [(key, x)], r4)
            | _ => none
          | _ => none
        | _ => none
      | none => none
    | _ => none

/-- Embedding of Python's `json.loads`: parse one value surrounded by
optional whitespace; anything else is a decoding error (`none`). -/
def json_loads (s : List Char) : Option J :=
  let u := skipWs s
  match parseMut (2 * u.length + 2) PReq.val u with
  | some (PRes.v x, rest) => if skipWs rest = [] then some x else none
  | _ => none

/-! ### The response decoder (`main.py` lines 106-107) -/

/-- The literal code-fence marker made of three backticks. -/
def fence3 : List Char := [tick, tick, tick]

/-- The literal marker three backticks followed by `json`. -/
def fenceJson : List Char := fence3 ++ ['j', 's', 'o', 'n']

/-- `response.text.strip().replace("\x60\x60\x60json", "").replace("\x60\x60\x60", "")`
from `main.py` line 106. -/
def cleanText (s : List Char) : List Char :=
  replaceAll fence3 [] (replaceAll fenceJson [] (pyStrip s))

/-- The full response decoder: fence stripping followed by `json.loads`. -/
def decodeResponse (s : List Char) : Option J := json_loads (cleanText s)

/-- A JSON text wrapped in triple-backtick fences tagged `json`. -/
def wrapFence (t : List Char) : List Char :=
  fenceJson ++ '\n' :: (t ++ '\n' :: fence3)

/-! ### The request pipeline (`main.py` lines 63-118) -/

/-- The AI system prompt of `main.py` lines 30-61, verbatim. -/
def SYSTEM_PROMPT : String :=
  "\nYou are an expert German administrative assistant. Your task is to analyze the content of a letter provided as an image or text.\nAnalyze the letter and extract key information.\nYou MUST respond ONLY with a valid JSON object. Do not include any text before or after the JSON.\n\nThe JSON object must have the following structure:\n\x7b\n  \"category\": \"One of: DEADLINE, FINANCIAL, INFO\",\n"
  ++ "  \"summary_german\": \"A concise 2-3 sentence summary of the letter in German.\",\n  \"deadline_date\": \"If a specific deadline or payment due date is mentioned (e.g., 'f채llig am', 'zahlbar bis zum 31.05.2024'), provide it in YYYY-MM-DDTHH:MM:SS format. Use T21:00:00 for the time (end of day). If no date, this must be null.\",\n  \"deadline_subject\": \"A short subject for a calendar event, e.g., 'Antrag f체r XYZ einreichen' or for bills 'Payment for ABC Corp'. If no action, this must be null.\",\n"
  ++ "  \"payment_amount\": \"The numeric value of any payment required. Otherwise, null.\",\n  \"payment_currency\": \"The currency symbol or code (e.g., 'EUR'). Otherwise, null.\",\n  \"payment_recipient\": \"Who the payment is for. Otherwise, null.\",\n  \"full_analysis_log\": \"A detailed breakdown of the letter's purpose, key points, and extracted entities.\"\n\x7d\n\n---\n**VERY IMPORTANT: CATEGORIZATION RULES**\n"
  ++ "\nFollow these rules in order. Stop at the first rule that matches.\n\n1.  **FINANCIAL Check:** First, scan the document for strong financial keywords like \"Rechnung\", \"Mahnung\", \"Betrag\", \"Kostenaufstellung\", \"f채llig\", \"zu zahlen\". \n    - If you find any of these, you **MUST** set the category to \"FINANCIAL\".\n    - Even if there is a date, if it is primarily a bill, the category is \"FINANCIAL\". Do not proceed to the next rule.\n"
  ++ "\n2.  **DEADLINE Check:** If, and only if, the document is NOT financial, then check for non-payment deadlines. Look for keywords like \"Antrag bis\", \"sp채testens bis\", \"fristgerecht einreichen\", \"Antwort bis\".\n    - If you find these, set the category to \"DEADLINE\".\n\n3.  **INFO Fallback:** If neither of the above rules apply, the category is \"INFO\".\n---\n"

/-- An uploaded file: name, declared content type, body bytes. -/
structure UploadFile where
  filename : String
  content_type : String
  content : List Nat

/-- A page image produced by rasterization: either a PDF page rendered
through `page.get_pixmap(dpi=...)` / `pix.tobytes("png")` /
`PIL.Image.open` (lines 86-88), or the uploaded bytes decoded directly
by `PIL.Image.open` (line 94). -/
inductive PageImage where
  | rendered (page : Nat) (dpi : Nat)
  | decoded (bytes : List Nat)

/-- One entry of the model request payload. -/
inductive Part where
  | text (s : String)
  | image (img : PageImage)

/-- External collaborators, outside this repository: PyMuPDF's
`fitz.open` (the pages of a parsed PDF in document order, or an
exception message), `PIL.Image.open` applied to the raw upload, and the
Gemini `generate_content` call returning the raw response text.  They
are parameters of the pipeline; within one environment each is a fixed
function of its input. -/
structure Env where
  openPdf : List Nat → Except String (List Nat)
  decodeImage : List Nat → Except String Unit
  generate : List Part → Except String String

/-- Observable events of one request, in chronological order. -/
inductive Event where
  | log (s : String)
  | readBody
  | pageRendered (page : Nat)
  | imageDecoded
  | modelCall (model : String) (payload : List Part) (temperature : ℚ)

/-- HTTP outcome of one request: a JSON success body, or an
`HTTPException` with status code and detail message. -/
inductive HttpOutcome where
  | success (body : J)
  | failure (status : Nat) (detail : String)

/-- Content types accepted by the endpoint (line 72). -/
def SUPPORTED_TYPES : List String := ["application/pdf", "image/jpeg", "image/png"]

/-- The fixed error detail returned on a decode failure (line 114). -/
def DECODE_ERROR_DETAIL : String := "The AI model returned an invalid format."

/-- Per-page progress logs and render events of the PDF loop
(lines 84-89). -/
def pageEvents (total : Nat) : Nat → List Nat → List Event
  | _, [] => []
  | i, p :: ps =>
    Event.log ("  - Processing page " ++ toString (i + 1) ++ "/" ++ toString total)
      :: Event.pageRendered p :: pageEvents total (i + 1) ps

/-- Pipeline continuation after rasterization: compose the payload
(line 78 with lines 89/95), call the model (lines 98-103), decode the
response and answer (lines 105-118). -/
def afterRaster (env : Env) (pre : List Event) (images : List PageImage) :
    List Event × HttpOutcome :=
  let payload := Part.text SYSTEM_PROMPT :: images.map Part.image
  let pre2 := pre ++
    [Event.log ("Sending request with " ++ toString (payload.length - 1) ++
        " image(s) to Google Gemini API..."),
     Event.modelCall "gemini-1.5-flash" payload ((1 : ℚ) / 10)]
  match env.generate payload with
  | Except.error msg =>
    (pre2 ++ [Event.log ("An unexpected error occurred: " ++ msg)],
     HttpOutcome.failure 500 ("An internal server error occurred: " ++ msg))
  | Except.ok raw =>
    let pre3 := pre2 ++ [Event.log "Received response from API."]
    match decodeResponse raw.data with
    | some v =>
      (pre3 ++ [Event.log "Successfully parsed JSON response."], HttpOutcome.success v)
    | none =>
      (pre3 ++ [Event.log ("ERROR: Failed to parse JSON from model response. Response was:\n" ++ raw)],
       HttpOutcome.failure 500 DECODE_ERROR_DETAIL)

/-- The `POST /analyze-letter/` handler (`main.py` lines 63-118), as a
function from the environment and the upload to the event trace and the
HTTP outcome. -/
def analyze_letter (env : Env) (file : UploadFile) : List Event × HttpOutcome :=
  let recvLog := Event.log ("Received file: " ++ file.filename ++ ", Content-Type: " ++ file.content_type)
  if file.content_type ∉ SUPPORTED_TYPES then
    ([recvLog], HttpOutcome.failure 400 "Invalid file type.")
  else if file.content_type = "application/pdf" then
    match env.openPdf file.content with
    | Except.error msg =>
      ([recvLog, Event.readBody, Event.log "PDF detected. Converting all pages to images...",
        Event.log ("An unexpected error occurred: " ++ msg)],
       HttpOutcome.failure 500 ("An internal server error occurred: " ++ msg))
    | Except.ok pages =>
      afterRaster env
        ([recvLog, Event.readBody, Event.log "PDF detected. Converting all pages to images..."]
          ++ pageEvents pages.length 0 pages ++ [Event.log "PDF conversion successful."])
        (pages.map (fun p => PageImage.rendered p 300))
  else
    match env.decodeImage file.content with
    | Except.error msg =>
      ([recvLog, Event.readBody, Event.log ("An unexpected error occurred: " ++ msg)],
       HttpOutcome.failure 500 ("An internal server error occurred: " ++ msg))
    | Except.ok _ =>
      afterRaster env [recvLog, Event.readBody, Event.imageDecoded]
        [PageImage.decoded file.content]

/-- Payloads of the model calls recorded in a trace. -/
def modelPayloads (evs : List Event) : List (List Part) :=
  evs.filterMap (fun e => match e with
    | Event.modelCall _ p _ => some p
    | _ => none)

/-- Model-call records (payload and temperature) of a trace. -/
def modelCalls (evs : List Event) : List (List Part × ℚ) :=
  evs.filterMap (fun e => match e with
    | Event.modelCall _ p t => some (p, t)
    | _ => none)

/-- The payload the pipeline composes when rasterization succeeds:
the instruction first, then the page images. -/
def pipelinePayload (env : Env) (file : UploadFile) : List Part :=
  Part.text SYSTEM_PROMPT ::
    (if file.content_type = "application/pdf" then
      match env.openPdf file.content with
      | Except.ok pages => pages.map (fun p => Part.image (PageImage.rendered p 300))
      | Except.error _ => []
    else [Part.image (PageImage.decoded file.content)])

/-- A request reaches the model call: supported content type and
successful rasterization. -/
def reachesModel (env : Env) (file : UploadFile) : Prop :=
  (file.content_type = "application/pdf" ∧
    ∃ pages, env.openPdf file.content = Except.ok pages) ∨
  ((file.content_type = "image/jpeg" ∨ file.content_type = "image/png") ∧
    env.decodeImage file.content = Except.ok ())

/-! ### Trace helper lemmas -/

theorem modelPayloads_append (a b : List Event) :
    modelPayloads (a ++ b) = modelPayloads a ++ modelPayloads b := by
  simp [modelPayloads]

theorem modelCalls_append (a b : List Event) :
    modelCalls (a ++ b) = modelCalls a ++ modelCalls b := by
  simp [modelCalls]

theorem modelPayloads_pageEvents (total i : Nat) (ps : List Nat) :
    modelPayloads (pageEvents total i ps) = [] := by
  induction ps generalizing i with
  | nil => rfl
  | cons p ps ih => simp [pageEvents, modelPayloads] at ih ⊢; exact ih (i + 1)

theorem modelCalls_pageEvents (total i : Nat) (ps : List Nat) :
    modelCalls (pageEvents total i ps) = [] := by
  induction ps generalizing i with
  | nil => rfl
  | cons p ps ih => simp [pageEvents, modelCalls] at ih ⊢; exact ih (i + 1)

theorem afterRaster_payloads (env : Env) (pre : List Event) (images : List PageImage)
    (h : modelPayloads pre = []) :
    modelPayloads (afterRaster env pre images).1 =
      [Part.text SYSTEM_PROMPT :: images.map Part.image] := by
  simp only [afterRaster]
  cases hg : env.generate (Part.text SYSTEM_PROMPT :: images.map Part.image) with
  | error msg =>
    simp only [modelPayloads_append, h, List.nil_append]
    rfl
  | ok raw =>
    cases hd : decodeResponse raw.data with
    | some v =>
      simp only [hd, modelPayloads_append, h, List.nil_append]
      rfl
    | none =>
      simp only [hd, modelPayloads_append, h, List.nil_append]
      rfl

theorem afterRaster_calls (env : Env) (pre : List Event) (images : List PageImage)
    (h : modelCalls pre = []) :
    modelCalls (afterRaster env pre images).1 =
      [(Part.text SYSTEM_PROMPT :: images.map Part.image, (1 : ℚ) / 10)] := by
  simp only [afterRaster]
  cases hg : env.generate (Part.text SYSTEM_PROMPT :: images.map Part.image) with
  | error msg =>
    simp only [modelCalls_append, h, List.nil_append]
    rfl
  | ok raw =>
    cases hd : decodeResponse raw.data with
    | some v =>
      simp only [hd, modelCalls_append, h, List.nil_append]
      rfl
    | none =>
      simp only [hd, modelCalls_append, h, List.nil_append]
      rfl

theorem afterRaster_decode_failure (env : Env) (pre : List Event) (images : List PageImage)
    (raw : String)
    (hg : env.generate (Part.text SYSTEM_PROMPT :: images.map Part.image) = Except.ok raw)
    (hd : decodeResponse raw.data = none) :
    (afterRaster env pre images).2 = HttpOutcome.failure 500 DECODE_ERROR_DETAIL ∧
    Event.log ("ERROR: Failed to parse JSON from model response. Response was:\n" ++ raw)
      ∈ (afterRaster env pre images).1 := by
  simp [afterRaster, hg, hd]

/-- Branch shape: unsupported content type (line 72-73). -/
theorem analyze_unsupported_eq (env : Env) (file : UploadFile)
    (h : file.content_type ∉ SUPPORTED_TYPES) :
    analyze_letter env file =
      ([Event.log ("Received file: " ++ file.filename ++ ", Content-Type: " ++ file.content_type)],
       HttpOutcome.failure 400 "Invalid file type.") := by
  simp only [analyze_letter]
  rw [if_pos h]

/-- Branch shape: PDF upload whose document opens successfully. -/
theorem analyze_pdf_ok_eq (env : Env) (file : UploadFile) (pages : List Nat)
    (hty : file.content_type = "application/pdf")
    (ho : env.openPdf file.content = Except.ok pages) :
    analyze_letter env file =
      afterRaster env
        ([Event.log ("Received file: " ++ file.filename ++ ", Content-Type: " ++ file.content_type),
          Event.readBody, Event.log "PDF detected. Converting all pages to images..."]
          ++ pageEvents pages.length 0 pages ++ [Event.log "PDF conversion successful."])
        (pages.map (fun p => PageImage.rendered p 300)) := by
  have hmem : ¬ file.content_type ∉ SUPPORTED_TYPES := by rw [hty]; decide
  simp only [analyze_letter]
  rw [if_neg hmem, if_pos hty, ho]

/-- Branch shape: PDF upload whose document fails to open. -/
theorem analyze_pdf_err_eq (env : Env) (file : UploadFile) (msg : String)
    (hty : file.content_type = "application/pdf")
    (ho : env.openPdf file.content = Except.error msg) :
    analyze_letter env file =
      ([Event.log ("Received file: " ++ file.filename ++ ", Content-Type: " ++ file.content_type),
        Event.readBody, Event.log "PDF detected. Converting all pages to images...",
        Event.log ("An unexpected error occurred: " ++ msg)],
       HttpOutcome.failure 500 ("An internal server error occurred: " ++ msg)) := by
  have hmem : ¬ file.content_type ∉ SUPPORTED_TYPES := by rw [hty]; decide
  simp only [analyze_letter]
  rw [if_neg hmem, if_pos hty, ho]

/-- Branch shape: supported image upload that decodes successfully. -/
theorem analyze_img_ok_eq (env : Env) (file : UploadFile)
    (hmem : file.content_type ∈ SUPPORTED_TYPES)
    (hpdf : file.content_type ≠ "application/pdf")
    (hd : env.decodeImage file.content = Except.ok ()) :
    analyze_letter env file =
      afterRaster env
        [Event.log ("Received file: " ++ file.filename ++ ", Content-Type: " ++ file.content_type),
         Event.readBody, Event.imageDecoded]
        [PageImage.decoded file.content] := by
  simp only [analyze_letter]
  rw [if_neg (fun hh => hh hmem), if_neg hpdf, hd]

/-- Branch shape: supported image upload that fails to decode. -/
theorem analyze_img_err_eq (env : Env) (file : UploadFile) (msg : String)
    (hmem : file.content_type ∈ SUPPORTED_TYPES)
    (hpdf : file.content_type ≠ "application/pdf")
    (hd : env.decodeImage file.content = Except.error msg) :
    analyze_letter env file =
      ([Event.log ("Received file: " ++ file.filename ++ ", Content-Type: " ++ file.content_type),
        Event.readBody, Event.log ("An unexpected error occurred: " ++ msg)],
       HttpOutcome.failure 500 ("An internal server error occurred: " ++ msg)) := by
  simp only [analyze_letter]
  rw [if_neg (fun hh => hh hmem), if_neg hpdf, hd]

/-- The event prefix of the PDF branch records no model call. -/
theorem modelPayloads_pdf_pre (file : UploadFile) (pages : List Nat) :
    modelPayloads
      ([Event.log ("Received file: " ++ file.filename ++ ", Content-Type: " ++ file.content_type),
        Event.readBody, Event.log "PDF detected. Converting all pages to images..."]
        ++ pageEvents pages.length 0 pages ++ [Event.log "PDF conversion successful."]) = [] := by
  rw [modelPayloads_append, modelPayloads_append, modelPayloads_pageEvents]
  rfl

/-- The event prefix of the PDF branch records no model call. -/
theorem modelCalls_pdf_pre (file : UploadFile) (pages : List Nat) :
    modelCalls
      ([Event.log ("Received file: " ++ file.filename ++ ", Content-Type: " ++ file.content_type),
        Event.readBody, Event.log "PDF detected. Converting all pages to images..."]
        ++ pageEvents pages.length 0 pages ++ [Event.log "PDF conversion successful."]) = [] := by
  rw [modelCalls_append, modelCalls_append, modelCalls_pageEvents]
  rfl

/-- Characterization of the model-call payloads of one request. -/
theorem modelPayloads_analyze (env : Env) (f : UploadFile) :
    modelPayloads (analyze_letter env f).1 =
      if f.content_type ∈ SUPPORTED_TYPES then
        if f.content_type = "application/pdf" then
          match env.openPdf f.content with
          | Except.ok pages =>
            [Part.text SYSTEM_PROMPT :: pages.map (fun p => Part.image (PageImage.rendered p 300))]
          | Except.error _ => []
        else
          match env.decodeImage f.content with
          | Except.ok _ => [[Part.text SYSTEM_PROMPT, Part.image (PageImage.decoded f.content)]]
          | Except.error _ => []
      else [] := by
  by_cases hmem : f.content_type ∈ SUPPORTED_TYPES
  · rw [if_pos hmem]
    by_cases hpdf : f.content_type = "application/pdf"
    · rw [if_pos hpdf]
      cases ho : env.openPdf f.content with
      | error msg => rw [analyze_pdf_err_eq env f msg hpdf ho]; rfl
      | ok pages =>
        rw [analyze_pdf_ok_eq env f pages hpdf ho,
          afterRaster_payloads env _ _ (modelPayloads_pdf_pre f pages), List.map_map]
        rfl
    · rw [if_neg hpdf]
      cases hd : env.decodeImage f.content with
      | error msg => rw [analyze_img_err_eq env f msg hmem hpdf hd]; rfl
      | ok u =>
        cases u
        rw [analyze_img_ok_eq env f hmem hpdf hd,
          afterRaster_payloads env _ _ (by rfl)]
        rfl
  · rw [if_neg hmem, analyze_unsupported_eq env f hmem]
    rfl

/-- Every model call of a request is made with temperature 1/10. -/
theorem modelCalls_analyze (env : Env) (f : UploadFile) :
    modelCalls (analyze_letter env f).1 =
      (modelPayloads (analyze_letter env f).1).map (fun p => (p, (1 : ℚ) / 10)) := by
  by_cases hmem : f.content_type ∈ SUPPORTED_TYPES
  · by_cases hpdf : f.content_type = "application/pdf"
    · cases ho : env.openPdf f.content with
      | error msg => rw [analyze_pdf_err_eq env f msg hpdf ho]; rfl
      | ok pages =>
        rw [analyze_pdf_ok_eq env f pages hpdf ho,
          afterRaster_calls env _ _ (modelCalls_pdf_pre f pages),
          afterRaster_payloads env _ _ (modelPayloads_pdf_pre f pages)]
        rfl
    · cases hd : env.decodeImage f.content with
      | error msg => rw [analyze_img_err_eq env f msg hmem hpdf hd]; rfl
      | ok u =>
        cases u
        rw [analyze_img_ok_eq env f hmem hpdf hd,
          afterRaster_calls env _ _ (by rfl),
          afterRaster_payloads env _ _ (by rfl)]
        rfl
  · rw [analyze_unsupported_eq env f hmem]
    rfl

/-! ### Claims about the request pipeline -/

/-- A placeholder environment whose externals are never consulted. -/
def envNone : Env :=
  ⟨fun _ => Except.error "not used", fun _ => Except.error "not used",
   fun _ => Except.error "not used"⟩

/-- C2: a request whose declared content type is not one of
application/pdf, image/jpeg, image/png is answered with HTTP 400
"Invalid file type.", and the trace contains only the receive log: the
body is not read, nothing is rasterized or decoded, and the model
client is not invoked. -/
theorem C2_unsupported_type_rejected (env : Env) (file : UploadFile)
    (h : file.content_type ∉ SUPPORTED_TYPES) :
    analyze_letter env file =
      ([Event.log ("Received file: " ++ file.filename ++ ", Content-Type: " ++ file.content_type)],
       HttpOutcome.failure 400 "Invalid file type.") :=
  analyze_unsupported_eq env file h

/-- Witness for C2 at the concrete content type text/plain. -/
theorem C2_unsupported_type_rejected_witness :
    ("text/plain" ∉ SUPPORTED_TYPES) ∧
    analyze_letter envNone ⟨"letter.txt", "text/plain", [104, 105]⟩ =
      ([Event.log ("Received file: " ++ "letter.txt" ++ ", Content-Type: " ++ "text/plain")],
       HttpOutcome.failure 400 "Invalid file type.") :=
  ⟨by decide, C2_unsupported_type_rejected envNone _ (by decide)⟩

/-- C5: for a PDF upload whose parsed document has n ≥ 1 pages, the
composed model request payload is exactly the instruction text followed
by n rendered page images, one per page in document order, each at
300 DPI. -/
theorem C5_pdf_payload_order (env : Env) (file : UploadFile) (pages : List Nat)
    (hty : file.content_type = "application/pdf")
    (hpdf : env.openPdf file.content = Except.ok pages)
    (_hn : 1 ≤ pages.length) :
    modelPayloads (analyze_letter env file).1 =
      [Part.text SYSTEM_PROMPT :: pages.map (fun p => Part.image (PageImage.rendered p 300))] := by
  rw [modelPayloads_analyze, if_pos (by rw [hty]; decide), if_pos hty, hpdf]

/-- Environment of the C5 witness: a two-page PDF. -/
def envC5 : Env :=
  ⟨fun _ => Except.ok [10, 20], fun _ => Except.error "not used", fun _ => Except.ok "null"⟩

/-- Witness for C5 on a concrete two-page PDF. -/
theorem C5_pdf_payload_order_witness :
    (1 ≤ ([10, 20] : List Nat).length) ∧
    modelPayloads (analyze_letter envC5 ⟨"doc.pdf", "application/pdf", [37]⟩).1 =
      [Part.text SYSTEM_PROMPT ::
        ([10, 20] : List Nat).map (fun p => Part.image (PageImage.rendered p 300))] :=
  ⟨by decide, C5_pdf_payload_order envC5 _ [10, 20] rfl rfl (by decide)⟩

/-- C6: for a supported single-image upload with decodable bytes, the
rasterization result is exactly one page image, the decoded upload, so
the payload is the instruction followed by that single image. -/
theorem C6_single_image_payload (env : Env) (file : UploadFile)
    (hty : file.content_type = "image/jpeg" ∨ file.content_type = "image/png")
    (hdec : env.decodeImage file.content = Except.ok ()) :
    modelPayloads (analyze_letter env file).1 =
      [[Part.text SYSTEM_PROMPT, Part.image (PageImage.decoded file.content)]] := by
  have hmem : file.content_type ∈ SUPPORTED_TYPES := by
    cases hty with
    | inl h => rw [h]; decide
    | inr h => rw [h]; decide
  have hpdf : ¬ file.content_type = "application/pdf" := by
    cases hty with
    | inl h => rw [h]; decide
    | inr h => rw [h]; decide
  rw [modelPayloads_analyze, if_pos hmem, if_neg hpdf, hdec]

/-- Environment of the C6 witness: image decoding succeeds. -/
def envC6 : Env :=
  ⟨fun _ => Except.error "not used", fun _ => Except.ok (), fun _ => Except.ok "null"⟩

/-- Witness for C6 on a concrete PNG upload. -/
theorem C6_single_image_payload_witness :
    ("image/png" = "image/jpeg" ∨ "image/png" = "image/png") ∧
    modelPayloads (analyze_letter envC6 ⟨"scan.png", "image/png", [137, 80, 78, 71]⟩).1 =
      [[Part.text SYSTEM_PROMPT, Part.image (PageImage.decoded [137, 80, 78, 71])]] :=
  ⟨Or.inr rfl, C6_single_image_payload envC6 _ (Or.inr rfl) rfl⟩

/-- C8: every request that reaches the model call invokes the external
model exactly once, with temperature 1/10 (the rational value of the
literal 0.1 in `GenerationConfig(temperature=0.1)`). -/
theorem C8_model_called_once_low_temp (env : Env) (file : UploadFile)
    (h : reachesModel env file) :
    ∃ p, modelCalls (analyze_letter env file).1 = [(p, (1 : ℚ) / 10)] := by
  rw [modelCalls_analyze, modelPayloads_analyze]
  cases h with
  | inl h =>
    obtain ⟨hty, pages, hpdf⟩ := h
    rw [if_pos (by rw [hty]; decide), if_pos hty, hpdf]
    exact ⟨_, rfl⟩
  | inr h =>
    obtain ⟨hty, hdec⟩ := h
    have hmem : file.content_type ∈ SUPPORTED_TYPES := by
      cases hty with
      | inl h2 => rw [h2]; decide
      | inr h2 => rw [h2]; decide
    have hpdf : ¬ file.content_type = "application/pdf" := by
      cases hty with
      | inl h2 => rw [h2]; decide
      | inr h2 => rw [h2]; decide
    rw [if_pos hmem, if_neg hpdf, hdec]
    exact ⟨_, rfl⟩

/-- Witness for C8 on a concrete PNG upload. -/
theorem C8_model_called_once_low_temp_witness :
    reachesModel envC6 ⟨"scan.png", "image/png", [1, 2]⟩ ∧
    ∃ p, modelCalls (analyze_letter envC6 ⟨"scan.png", "image/png", [1, 2]⟩).1 =
      [(p, (1 : ℚ) / 10)] :=
  ⟨Or.inr ⟨Or.inr rfl, rfl⟩,
   C8_model_called_once_low_temp envC6 _ (Or.inr ⟨Or.inr rfl, rfl⟩)⟩

/-- C10: the composed model request payload is a function of the
uploaded bytes and declared content type alone (given fixed external
collaborators); in particular the file name does not influence it. -/
theorem C10_payload_deterministic (env : Env) (f1 f2 : UploadFile)
    (hct : f1.content_type = f2.content_type)
    (hc : f1.content = f2.content) :
    modelPayloads (analyze_letter env f1).1 = modelPayloads (analyze_letter env f2).1 := by
  rw [modelPayloads_analyze, modelPayloads_analyze, hct, hc]

/-- Witness for C10: identical bytes and type, different file names. -/
theorem C10_payload_deterministic_witness :
    (("a.png" : String) ≠ "b.png") ∧
    modelPayloads (analyze_letter envC6 ⟨"a.png", "image/png", [7]⟩).1 =
      modelPayloads (analyze_letter envC6 ⟨"b.png", "image/png", [7]⟩).1 :=
  ⟨by decide, C10_payload_deterministic envC6 _ _ rfl rfl⟩

/-- Environment of the C1 scenario: `fitz.open` succeeds with an empty
page list (a zero-page PDF) and the model answers `null`. -/
def envC1 : Env :=
  ⟨fun _ => Except.ok [], fun _ => Except.error "not used", fun _ => Except.ok "null"⟩

/-- C1: the code does not signal a failure for a zero-page PDF.  The
request completes as HTTP success and the model is invoked with a
payload consisting of the instruction text alone — an empty page-image
sequence — contradicting the claim. -/
theorem C1_zero_page_pdf_not_rejected :
    (analyze_letter envC1 ⟨"empty.pdf", "application/pdf", [37, 80, 68, 70]⟩).2 =
      HttpOutcome.success J.null ∧
    modelPayloads (analyze_letter envC1 ⟨"empty.pdf", "application/pdf", [37, 80, 68, 70]⟩).1 =
      [[Part.text SYSTEM_PROMPT]] :=
  ⟨rfl, rfl⟩

/-- C4: when the model response text, after whitespace and code-fence
stripping, fails to parse as JSON, the decoder yields no value and the
request is answered with HTTP 500 and the fixed formatting-failure
message. -/
theorem C4_bad_model_output_500 (env : Env) (file : UploadFile) (raw : String)
    (hreach : reachesModel env file)
    (hgen : env.generate (pipelinePayload env file) = Except.ok raw)
    (hdec : json_loads (cleanText raw.data) = none) :
    (analyze_letter env file).2 = HttpOutcome.failure 500 DECODE_ERROR_DETAIL := by
  cases hreach with
  | inl h =>
    obtain ⟨hty, pages, hpdf⟩ := h
    have hpay : pipelinePayload env file =
        Part.text SYSTEM_PROMPT ::
          (pages.map (fun p => PageImage.rendered p 300)).map Part.image := by
      simp [pipelinePayload, hty, hpdf, List.map_map]
    rw [hpay] at hgen
    rw [analyze_pdf_ok_eq env file pages hty hpdf]
    exact (afterRaster_decode_failure env _ _ raw hgen hdec).1
  | inr h =>
    obtain ⟨hty, hdec2⟩ := h
    have hpdf : file.content_type ≠ "application/pdf" := by
      cases hty with
      | inl h2 => rw [h2]; decide
      | inr h2 => rw [h2]; decide
    have hmem : file.content_type ∈ SUPPORTED_TYPES := by
      cases hty with
      | inl h2 => rw [h2]; decide
      | inr h2 => rw [h2]; decide
    have hpay : pipelinePayload env file =
        Part.text SYSTEM_PROMPT :: ([PageImage.decoded file.content]).map Part.image := by
      simp [pipelinePayload, hpdf]
    rw [hpay] at hgen
    rw [analyze_img_ok_eq env file hmem hpdf hdec2]
    exact (afterRaster_decode_failure env _ _ raw hgen hdec).1

/-- Environment of the C4 witness: the model answers text that is not
JSON. -/
def envC4 : Env :=
  ⟨fun _ => Except.error "not used", fun _ => Except.ok (),
   fun _ => Except.ok "I am not JSON"⟩

/-- Witness for C4: a concrete non-JSON model response yields the
fixed HTTP 500 answer. -/
theorem C4_bad_model_output_500_witness :
    reachesModel envC4 ⟨"scan.png", "image/png", [9]⟩ ∧
    json_loads (cleanText "I am not JSON".data) = none ∧
    (analyze_letter envC4 ⟨"scan.png", "image/png", [9]⟩).2 =
      HttpOutcome.failure 500 DECODE_ERROR_DETAIL :=
  ⟨Or.inr ⟨Or.inr rfl, rfl⟩, rfl,
   C4_bad_model_output_500 envC4 _ "I am not JSON" (Or.inr ⟨Or.inr rfl, rfl⟩) rfl rfl⟩

/-- C7 (amended): on a decode failure the HTTP error body is the fixed
message "The AI model returned an invalid format.", independent of the
raw model text; the raw text is written to the server-side log.  (The
raw text can therefore appear in the body only in the degenerate case
that it coincides with a substring of that fixed message.) -/
theorem C7_error_body_fixed_raw_logged (env : Env) (file : UploadFile) (raw : String)
    (hreach : reachesModel env file)
    (hgen : env.generate (pipelinePayload env file) = Except.ok raw)
    (hdec : decodeResponse raw.data = none) :
    (analyze_letter env file).2 = HttpOutcome.failure 500 DECODE_ERROR_DETAIL ∧
    Event.log ("ERROR: Failed to parse JSON from model response. Response was:\n" ++ raw)
      ∈ (analyze_letter env file).1 := by
  cases hreach with
  | inl h =>
    obtain ⟨hty, pages, hpdf⟩ := h
    have hpay : pipelinePayload env file =
        Part.text SYSTEM_PROMPT ::
          (pages.map (fun p => PageImage.rendered p 300)).map Part.image := by
      simp [pipelinePayload, hty, hpdf, List.map_map]
    rw [hpay] at hgen
    rw [analyze_pdf_ok_eq env file pages hty hpdf]
    exact afterRaster_decode_failure env _ _ raw hgen hdec
  | inr h =>
    obtain ⟨hty, hdec2⟩ := h
    have hpdf : file.content_type ≠ "application/pdf" := by
      cases hty with
      | inl h2 => rw [h2]; decide
      | inr h2 => rw [h2]; decide
    have hmem : file.content_type ∈ SUPPORTED_TYPES := by
      cases hty with
      | inl h2 => rw [h2]; decide
      | inr h2 => rw [h2]; decide
    have hpay : pipelinePayload env file =
        Part.text SYSTEM_PROMPT :: ([PageImage.decoded file.content]).map Part.image := by
      simp [pipelinePayload, hpdf]
    rw [hpay] at hgen
    rw [analyze_img_ok_eq env file hmem hpdf hdec2]
    exact afterRaster_decode_failure env _ _ raw hgen hdec

/-- Witness for the amended C7 on a concrete failing response. -/
theorem C7_error_body_fixed_raw_logged_witness :
    reachesModel envC4 ⟨"scan.png", "image/png", [9]⟩ ∧
    (analyze_letter envC4 ⟨"scan.png", "image/png", [9]⟩).2 =
      HttpOutcome.failure 500 DECODE_ERROR_DETAIL ∧
    Event.log ("ERROR: Failed to parse JSON from model response. Response was:\n" ++ "I am not JSON")
      ∈ (analyze_letter envC4 ⟨"scan.png", "image/png", [9]⟩).1 :=
  ⟨Or.inr ⟨Or.inr rfl, rfl⟩,
   C7_error_body_fixed_raw_logged envC4 _ "I am not JSON" (Or.inr ⟨Or.inr rfl, rfl⟩) rfl rfl⟩

/-- Environment of the C7 counterexample: the model answers exactly the
fixed error message text. -/
def envC7 : Env :=
  ⟨fun _ => Except.error "not used", fun _ => Except.ok (),
   fun _ => Except.ok DECODE_ERROR_DETAIL⟩

/-- C7 counterexample: a raw model response that fails to decode and
nevertheless appears verbatim in the HTTP error body, because it
coincides with the fixed error message — so the claim, read as "the
raw text never appears in the error body", is false. -/
theorem C7_counterexample_raw_appears_in_body :
    decodeResponse DECODE_ERROR_DETAIL.data = none ∧
    (analyze_letter envC7 ⟨"scan.png", "image/png", [9]⟩).2 =
      HttpOutcome.failure 500 DECODE_ERROR_DETAIL ∧
    DECODE_ERROR_DETAIL.data <:+: DECODE_ERROR_DETAIL.data :=
  ⟨rfl, rfl, List.infix_rfl⟩


/-! ### Lemmas about code-fence removal -/

theorem replaceAllGo_fuel (pat rep : List Char) :
    ∀ f g s, s.length ≤ f → s.length ≤ g →
      replaceAllGo pat rep f s = replaceAllGo pat rep g s := by
  intro f
  induction f with
  | zero =>
    intro g s hf _
    have hs : s = [] := List.eq_nil_of_length_eq_zero (Nat.le_zero.mp hf)
    subst hs
    cases g <;> rfl
  | succ f ih =>
    intro g s hf hg
    cases s with
    | nil => cases g <;> rfl
    | cons c cs =>
      cases g with
      | zero => exact absurd hg (by simp)
      | succ g2 =>
        show replaceAllGo pat rep (f + 1) (c :: cs) = replaceAllGo pat rep (g2 + 1) (c :: cs)
        simp only [replaceAllGo]
        by_cases h : leadsWith pat (c :: cs) = true
        · rw [if_pos h, if_pos h]
          have hlen : (List.drop (pat.length - 1) cs).length ≤ cs.length := by
            rw [List.length_drop]; omega
          have hf2 : cs.length ≤ f := by simpa using hf
          have hg2 : cs.length ≤ g2 := by simpa using hg
          exact congrArg (rep ++ ·) (ih g2 _ (le_trans hlen hf2) (le_trans hlen hg2))
        · rw [if_neg h, if_neg h]
          exact congrArg (c :: ·) (ih g2 cs (by simpa using hf) (by simpa using hg))

/-- One-step unfolding of `replaceAll` on a non-empty input. -/
theorem replaceAll_cons (pat rep : List Char) (c : Char) (cs : List Char) :
    replaceAll pat rep (c :: cs) =
      if leadsWith pat (c :: cs) then
        rep ++ replaceAll pat rep (List.drop (pat.length - 1) cs)
      else c :: replaceAll pat rep cs := by
  show replaceAllGo pat rep (cs.length + 1) (c :: cs) = _
  simp only [replaceAllGo]
  by_cases h : leadsWith pat (c :: cs) = true
  · rw [if_pos h, if_pos h]
    exact congrArg (rep ++ ·)
      (replaceAllGo_fuel pat rep cs.length _ _ (by rw [List.length_drop]; omega) le_rfl)
  · rw [if_neg h, if_neg h]
    rfl

theorem leadsWith_iff (p : List Char) : ∀ s, leadsWith p s = true ↔ p <+: s := by
  induction p with
  | nil =>
    intro s
    simp [leadsWith, List.nil_prefix]
  | cons a p ih =>
    intro s
    cases s with
    | nil => simp [leadsWith]
    | cons c cs => simp [leadsWith, List.cons_prefix_cons, ih]

/-- An initial segment is in particular a contiguous segment. -/
theorem inside_of_lead {l1 l2 : List Char} (h : l1 <+: l2) : l1 <:+: l2 := by
  obtain ⟨t, rfl⟩ := h
  exact ⟨[], t, rfl⟩

/-- `replaceAll` leaves a string without occurrences of the pattern
unchanged. -/
theorem replaceAll_of_no_occurrence (pat rep : List Char) :
    ∀ s, ¬ pat <:+: s → replaceAll pat rep s = s := by
  intro s
  induction s with
  | nil => intro _; rfl
  | cons c cs ih =>
    intro h
    have hnl : ¬ leadsWith pat (c :: cs) = true :=
      fun hl => h (inside_of_lead ((leadsWith_iff pat _).mp hl))
    rw [replaceAll_cons, if_neg hnl, ih (fun hi => h ( List.infix_cons hi))]

/-- `replaceAll` on an input starting with the pattern replaces that
occurrence and continues after it. -/
theorem replaceAll_head_occurrence (pat rep s : List Char) (hp : pat ≠ []) :
    replaceAll pat rep (pat ++ s) = rep ++ replaceAll pat rep s := by
  cases pat with
  | nil => exact absurd rfl hp
  | cons p ps =>
    have hlw : leadsWith (p :: ps) (p :: (ps ++ s)) = true := by
      refine (leadsWith_iff _ _).mpr ?_
      rw [← List.cons_append]
      exact List.prefix_append _ _
    rw [List.cons_append, replaceAll_cons, if_pos hlw]
    have hdrop : List.drop ((p :: ps).length - 1) (ps ++ s) = s := by
      simp
    rw [hdrop]

/-- After replacing the triple-backtick pattern by the empty string, the
output contains no occurrence of it; the auxiliary components track the
possible backtick runs at the head of the output. -/
theorem replaceAll_fence3_clean :
    ∀ n s, s.length ≤ n →
      (¬ fence3 <:+: replaceAll fence3 [] s) ∧
      ((¬ [tick] <+: s) → ¬ [tick] <+: replaceAll fence3 [] s) ∧
      ((¬ [tick, tick] <+: s) → ¬ [tick, tick] <+: replaceAll fence3 [] s) := by
  intro n
  induction n with
  | zero =>
    intro s hs
    have hs0 : s = [] := List.eq_nil_of_length_eq_zero (Nat.le_zero.mp hs)
    subst hs0
    refine ⟨?_, fun h => h, fun h => h⟩
    simp [replaceAll, replaceAllGo, List.infix_nil, fence3]
  | succ n ih =>
    intro s hs
    cases s with
    | nil =>
      refine ⟨?_, fun h => h, fun h => h⟩
      simp [replaceAll, replaceAllGo, List.infix_nil, fence3]
    | cons c cs =>
      by_cases hm : leadsWith fence3 (c :: cs) = true
      · have hpre : fence3 <+: c :: cs := (leadsWith_iff _ _).mp hm
        have hone : [tick] <+: c :: cs :=
           List.IsPrefix.trans (by decide) hpre
        have heq : replaceAll fence3 [] (c :: cs) =
            replaceAll fence3 [] (List.drop 2 cs) := by
          rw [replaceAll_cons, if_pos hm]
          rfl
        have hd : (List.drop 2 cs).length ≤ n := by
          rw [List.length_drop]
          have : cs.length ≤ n := by simpa using hs
          omega
        refine ⟨?_, fun h1 => absurd hone h1, fun h2 => ?_⟩
        · rw [heq]; exact (ih _ hd).1
        · exact absurd (List.IsPrefix.trans (by decide) hpre) h2
      · have hnp : ¬ fence3 <+: c :: cs := fun hp => hm ((leadsWith_iff _ _).mpr hp)
        have heq : replaceAll fence3 [] (c :: cs) = c :: replaceAll fence3 [] cs := by
          rw [replaceAll_cons, if_neg hm]
        have hcs : cs.length ≤ n := by simpa using hs
        refine ⟨?_, ?_, ?_⟩
        · rw [heq]
          intro hi
          rcases ( List.infix_cons_iff).mp hi with hp | hi2
          · rcases ( List.cons_prefix_cons).mp hp with ⟨hc, htail⟩
            have h2cs : ¬ [tick, tick] <+: cs := by
              intro h2
              exact hnp (by
                subst hc
                exact ( List.cons_prefix_cons).mpr ⟨rfl, h2⟩)
            exact (ih cs hcs).2.2 h2cs htail
          · exact (ih cs hcs).1 hi2
        · intro h1
          rw [heq]
          intro hp
          rcases ( List.cons_prefix_cons).mp hp with ⟨hc, _⟩
          exact h1 (( List.cons_prefix_cons).mpr ⟨hc, List.nil_prefix⟩)
        · intro h2
          rw [heq]
          intro hp
          rcases ( List.cons_prefix_cons).mp hp with ⟨hc, htail⟩
          have h1cs : ¬ [tick] <+: cs := by
            intro h1
            exact h2 (( List.cons_prefix_cons).mpr ⟨hc, h1⟩)
          exact (ih cs hcs).2.1 h1cs htail

/-- The decoded text never contains a triple-backtick marker. -/
theorem cleanText_no_fence3 (s : List Char) : ¬ fence3 <:+: cleanText s :=
  (replaceAll_fence3_clean _ _ le_rfl).1

/-- C9: the fence stripping of the decoder removes every occurrence of
the backtick markers anywhere in the text: the processed text contains
no occurrence of the three-backtick marker (hence none of the
backtick-json marker either), and consequently any text containing a
triple-backtick sequence — in particular any JSON whose string values
contain one — differs from the text actually parsed. -/
theorem C9_fences_removed_globally (t : List Char) (h : fence3 <:+: t) :
    (¬ fence3 <:+: cleanText t) ∧ (¬ fenceJson <:+: cleanText t) ∧ cleanText t ≠ t := by
  refine ⟨cleanText_no_fence3 t, ?_, ?_⟩
  · intro hj
    exact cleanText_no_fence3 t
      ( List.IsInfix.trans (inside_of_lead (List.prefix_append _ _)) hj)
  · intro he
    refine cleanText_no_fence3 t ?_
    rw [he]
    exact h

/-- Witness for C9: a concrete text containing a fence marker. -/
theorem C9_fences_removed_globally_witness :
    (fence3 <:+: ('a' :: fence3 ++ ['b'])) ∧
    (¬ fence3 <:+: cleanText ('a' :: fence3 ++ ['b'])) ∧
    (¬ fenceJson <:+: cleanText ('a' :: fence3 ++ ['b'])) ∧
    cleanText ('a' :: fence3 ++ ['b']) ≠ ('a' :: fence3 ++ ['b']) :=
  ⟨⟨['a'], ['b'], rfl⟩, C9_fences_removed_globally _ ⟨['a'], ['b'], rfl⟩⟩


/-! ### Character-class and whitespace lemmas -/

theorem jsonWs_pyWs {c : Char} (h : isJsonWs c = true) : isPyWs c = true := by
  simp [isJsonWs] at h
  rcases h with ((h | h) | h) | h <;> subst h <;> decide

theorem not_pyWs_not_jsonWs {c : Char} (h : isPyWs c = false) : isJsonWs c = false := by
  cases hj : isJsonWs c with
  | false => rfl
  | true => rw [jsonWs_pyWs hj] at h; cases h

theorem digit_toNat_bounds {c : Char} (h : c.isDigit = true) :
    48 ≤ c.toNat ∧ c.toNat ≤ 57 := by
  simp [Char.isDigit] at h
  exact ⟨h.1, h.2⟩

theorem digit_not_pyWs {c : Char} (h : c.isDigit = true) : isPyWs c = false := by
  have hb := digit_toNat_bounds h
  have hm : c.toNat ∉ pyWsCodes := by
    simp only [pyWsCodes, List.mem_cons, List.not_mem_nil, or_false]
    push_neg
    refine ⟨?_, ?_, ?_, ?_, ?_, ?_, ?_, ?_, ?_, ?_, ?_, ?_, ?_, ?_, ?_, ?_, ?_, ?_,
      ?_, ?_, ?_, ?_, ?_, ?_, ?_, ?_, ?_, ?_⟩ <;> omega
  simp [isPyWs, hm]

/-- On a list whose remaining head fails the Python whitespace test,
dropping Python whitespace and dropping JSON whitespace agree. -/
theorem dropWhile_py_eq_json :
    ∀ s : List Char,
      (∀ c r, s.dropWhile isJsonWs = c :: r → isPyWs c = false) →
      s.dropWhile isPyWs = s.dropWhile isJsonWs := by
  intro s
  induction s with
  | nil => intro _; rfl
  | cons c cs ih =>
    intro h
    cases hj : isJsonWs c with
    | true =>
      rw [List.dropWhile_cons_of_pos hj, List.dropWhile_cons_of_pos (jsonWs_pyWs hj)]
      apply ih
      intro d r hdr
      apply h
      rw [List.dropWhile_cons_of_pos hj, hdr]
    | false =>
      have hp : isPyWs c = false := by
        apply h c cs
        rw [List.dropWhile_cons_of_neg (by rw [hj]; exact Bool.false_ne_true)]
      rw [List.dropWhile_cons_of_neg (by rw [hp]; exact Bool.false_ne_true),
        List.dropWhile_cons_of_neg (by rw [hj]; exact Bool.false_ne_true)]

theorem skipWs_append_of_cons {s : List Char} {c : Char} {r : List Char}
    (h : skipWs s = c :: r) (y : List Char) : skipWs (s ++ y) = c :: (r ++ y) := by
  unfold skipWs at h ⊢
  rw [List.dropWhile_append, h]
  rfl

theorem skipWs_cons_of_neg {c : Char} (r : List Char) (h : isJsonWs c = false) :
    skipWs (c :: r) = c :: r := by
  unfold skipWs
  rw [List.dropWhile_cons_of_neg (by rw [h]; exact Bool.false_ne_true)]

/-- Skipping whitespace after prepending whitespace-only text changes
nothing. -/
theorem skipWs_append_all_ws {a : List Char} (ha : ∀ c ∈ a, isJsonWs c = true)
    (b : List Char) : skipWs (a ++ b) = skipWs b := by
  unfold skipWs
  rw [List.dropWhile_append, List.dropWhile_eq_nil_iff.mpr ha]
  rfl

theorem skipWs_eq_nil_iff {s : List Char} :
    skipWs s = [] ↔ ∀ c ∈ s, isJsonWs c = true := List.dropWhile_eq_nil_iff

/-! ### Keyword-literal helper lemmas -/

theorem expectLit_eq_some {lit : List Char} {x : J} {r : List Char}
    {res : PRes × List Char} (h : expectLit lit x r = some res) :
    ∃ u, r = lit ++ u ∧ res = (PRes.v x, u) := by
  unfold expectLit at h
  by_cases hl : leadsWith lit r = true
  · rw [if_pos hl] at h
    obtain ⟨u, hu⟩ := (leadsWith_iff lit r).mp hl
    refine ⟨u, hu.symm, ?_⟩
    cases h
    rw [← hu, List.drop_left]
  · rw [if_neg hl] at h
    cases h

theorem expectLit_of_append (lit : List Char) (x : J) (u : List Char) :
    expectLit lit x (lit ++ u) = some (PRes.v x, u) := by
  unfold expectLit
  rw [if_pos ((leadsWith_iff _ _).mpr (List.prefix_append _ _)), List.drop_left]

/-- Ends-in-a-non-whitespace-character predicate used to show that the
consumed part of a successful parse survives `str.strip`. -/
def endsNonWs (con : List Char) : Prop :=
  ∃ u d, con = u ++ [d] ∧ isPyWs d = false

theorem endsNonWs_append_left (a : List Char) {b : List Char} (h : endsNonWs b) :
    endsNonWs (a ++ b) := by
  obtain ⟨u, d, rfl, hd⟩ := h
  exact ⟨a ++ u, d, by rw [List.append_assoc], hd⟩

/-- Heads-with-a-non-whitespace-character predicate for consumed parts. -/
def headNonWs (con : List Char) : Prop :=
  ∃ c cs, con = c :: cs ∧ isPyWs c = false

theorem headNonWs_cons {c : Char} (cs : List Char) (h : isPyWs c = false) :
    headNonWs (c :: cs) := ⟨c, cs, rfl, h⟩

theorem headNonWs_append_right {a : List Char} (h : headNonWs a) (b : List Char) :
    headNonWs (a ++ b) := by
  obtain ⟨c, cs, rfl, hc⟩ := h
  exact ⟨c, cs ++ b, rfl, hc⟩


/-! ### takeWhile / dropWhile boundary lemmas -/

theorem dropWhile_head_false {p : Char → Bool} :
    ∀ s c rd, List.dropWhile p s = c :: rd → p c = false := by
  intro s
  induction s with
  | nil => intro c rd h; cases h
  | cons a s ih =>
    intro c rd h
    rw [List.dropWhile_cons] at h
    by_cases hp : p a = true
    · rw [if_pos hp] at h
      exact ih c rd h
    · rw [if_neg hp] at h
      cases h
      simpa using hp

/-- Appending `y` after a list whose scan already stopped (or whose scan
would stop at the head of `y`) changes neither the consumed part nor the
stopping point. -/
theorem scan_stop {p : Char → Bool} {s y : List Char}
    (hy : List.dropWhile p s = [] → y = [] ∨ ∃ c r, y = c :: r ∧ p c = false) :
    List.takeWhile p (s ++ y) = List.takeWhile p s ∧
      List.dropWhile p (s ++ y) = List.dropWhile p s ++ y := by
  cases hrd : List.dropWhile p s with
  | nil =>
    have hall : ∀ c ∈ s, p c = true := List.dropWhile_eq_nil_iff.mp hrd
    have htw : List.takeWhile p s = s := by
      have h2 := List.takeWhile_append_dropWhile p s
      rw [hrd, List.append_nil] at h2
      exact h2
    have hty : List.takeWhile p y = [] := by
      rcases hy hrd with rfl | ⟨c, r, rfl, hc⟩
      · rfl
      · rw [List.takeWhile_cons, if_neg (by rw [hc]; exact Bool.false_ne_true)]
    have hdy : List.dropWhile p y = y := by
      rcases hy hrd with rfl | ⟨c, r, rfl, hc⟩
      · rfl
      · rw [List.dropWhile_cons, if_neg (by rw [hc]; exact Bool.false_ne_true)]
    refine ⟨?_, ?_⟩
    · rw [List.takeWhile_append_of_pos hall, hty, List.append_nil, htw]
    · rw [List.dropWhile_append_of_pos hall, hdy, List.nil_append]
  | cons c rd =>
    have hc : p c = false := dropWhile_head_false s c rd hrd
    have htwall : ∀ a ∈ List.takeWhile p s, p a = true := fun a ha => List.mem_takeWhile_imp ha
    have hdec : s ++ y = List.takeWhile p s ++ ((c :: rd) ++ y) := by
      conv_lhs => rw [← List.takeWhile_append_dropWhile p s, hrd]
      rw [List.append_assoc]
    refine ⟨?_, ?_⟩
    · rw [hdec, List.takeWhile_append_of_pos htwall, List.cons_append,
        List.takeWhile_cons, if_neg (by rw [hc]; exact Bool.false_ne_true), List.append_nil]
    · rw [hdec, List.dropWhile_append_of_pos htwall, List.cons_append,
        List.dropWhile_cons, if_neg (by rw [hc]; exact Bool.false_ne_true)]

/-- The components excluded by a number-safe head. -/
theorem numSafe_facts {y : List Char} (h : numSafeHead y = true) :
    y = [] ∨ ∃ c r, y = c :: r ∧ c.isDigit = false ∧ ¬ c = '.' ∧ ¬ c = 'e' ∧
      ¬ c = 'E' ∧ ¬ c = '+' ∧ ¬ c = '-' := by
  cases y with
  | nil => exact Or.inl rfl
  | cons c r =>
    refine Or.inr ⟨c, r, rfl, ?_, ?_, ?_, ?_, ?_, ?_⟩ <;>
      (simp [numSafeHead, isNumCont] at h; tauto)

/-! ### Fractional-part lemmas -/

theorem fracPart_ext {s y tok rest : List Char} (hy : numSafeHead y = true)
    (h : fracPart s = (tok, rest)) : fracPart (s ++ y) = (tok, rest ++ y) := by
  rcases numSafe_facts hy with rfl | ⟨cy, ry, rfl, hyd, hyp, _, _, _, _⟩
  · rw [List.append_nil, h, List.append_nil]
  have hsc : ∀ s' : List Char,
      List.takeWhile Char.isDigit (s' ++ cy :: ry) = List.takeWhile Char.isDigit s' ∧
      List.dropWhile Char.isDigit (s' ++ cy :: ry) =
        List.dropWhile Char.isDigit s' ++ cy :: ry :=
    fun s' => scan_stop (fun _ => Or.inr ⟨cy, ry, rfl, hyd⟩)
  cases s with
  | nil =>
    unfold fracPart at h
    cases h
    rw [List.nil_append]
    unfold fracPart
    split
    · rename_i r' heq
      injection heq with h1 _
      exact absurd h1 hyp
    · rfl
  | cons c r =>
    unfold fracPart at h
    split at h
    · rename_i r' heq
      injection heq with h1 h2
      subst h1
      subst h2
      rw [List.cons_append]
      unfold fracPart
      split
      · rename_i r2 heq2
        injection heq2 with _ h2
        subst h2
        simp only at h ⊢
        rw [(hsc r).1]
        split at h
        · rename_i hfs
          cases h
          rw [if_pos hfs, List.cons_append]
        · rename_i hfs
          cases h
          rw [if_neg hfs, (hsc r).2]
      · rename_i hno
        exact absurd rfl (hno (r ++ cy :: ry))
    · rename_i hno
      cases h
      rw [List.cons_append]
      unfold fracPart
      split
      · rename_i r2 heq2
        injection heq2 with h1 _
        subst h1
        exact absurd rfl (hno r)
      · rfl

theorem fracPart_inv {s tok rest : List Char} (h : fracPart s = (tok, rest)) :
    s = tok ++ rest ∧
      (tok = [] ∨ ∃ fs, tok = '.' :: fs ∧ fs ≠ [] ∧ ∀ c ∈ fs, c.isDigit = true) := by
  unfold fracPart at h
  split at h
  · rename_i r'
    simp only at h
    split at h
    · cases h
      exact ⟨(List.nil_append _).symm, Or.inl rfl⟩
    · rename_i hfs
      cases h
      refine ⟨?_, Or.inr ⟨List.takeWhile Char.isDigit r', rfl, ?_, ?_⟩⟩
      · rw [List.cons_append, List.takeWhile_append_dropWhile]
      · intro h0
        rw [h0] at hfs
        exact hfs rfl
      · exact fun c hc => List.mem_takeWhile_imp hc
  · cases h
    exact ⟨(List.nil_append _).symm, Or.inl rfl⟩

/-- Recomputing `fracPart` on text that does not start with a dot. -/
theorem fracPart_not_dot {s : List Char}
    (h : s = [] ∨ ∃ c r, s = c :: r ∧ ¬ c = '.') : fracPart s = ([], s) := by
  rcases h with rfl | ⟨c, r, rfl, hc⟩
  · rfl
  · unfold fracPart
    split
    · rename_i r' heq
      injection heq with h1 _
      exact absurd h1 hc
    · rfl

/-- Recomputing `fracPart` on a fraction token followed by text that
does not start with a digit. -/
theorem fracPart_token {fs z : List Char} (hne : fs ≠ [])
    (hdig : ∀ c ∈ fs, c.isDigit = true)
    (hz : z = [] ∨ ∃ c r, z = c :: r ∧ c.isDigit = false) :
    fracPart (('.' :: fs) ++ z) = ('.' :: fs, z) := by
  have htz : List.takeWhile Char.isDigit (fs ++ z) = fs ∧
      List.dropWhile Char.isDigit (fs ++ z) = z := by
    have h2 := scan_stop (p := Char.isDigit) (s := fs) (y := z)
      (fun _ => by
        rcases hz with rfl | ⟨c, r, rfl, hc⟩
        · exact Or.inl rfl
        · exact Or.inr ⟨c, r, rfl, hc⟩)
    have htf : List.takeWhile Char.isDigit fs = fs := by
      have h3 := List.takeWhile_append_dropWhile Char.isDigit fs
      rw [List.dropWhile_eq_nil_iff.mpr hdig, List.append_nil] at h3
      exact h3
    have hdf : List.dropWhile Char.isDigit fs = [] := List.dropWhile_eq_nil_iff.mpr hdig
    rw [h2.1, h2.2, htf, hdf, List.nil_append]
    exact ⟨rfl, rfl⟩
  rw [List.cons_append]
  unfold fracPart
  split
  · rename_i r' heq
    injection heq with _ h2
    subst h2
    simp only
    rw [htz.1, if_neg (by simpa using hne), htz.2]
  · rename_i hno
    exact absurd rfl (hno (fs ++ z))

/-! ### Exponent-part lemmas -/

theorem expPart_not_exp {s : List Char}
    (h : s = [] ∨ ∃ c r, s = c :: r ∧ ¬ c = 'e' ∧ ¬ c = 'E') :
    expPart s = ([], s) := by
  rcases h with rfl | ⟨c, r, rfl, he, hE⟩
  · rfl
  · unfold expPart
    dsimp only
    rw [if_neg (by simp [he, hE])]

theorem expPart_ext {s y tok rest : List Char} (hy : numSafeHead y = true)
    (h : expPart s = (tok, rest)) : expPart (s ++ y) = (tok, rest ++ y) := by
  rcases numSafe_facts hy with rfl | ⟨cy, ry, rfl, hyd, _, hye, hyE, hyp, hym⟩
  · rw [List.append_nil, h, List.append_nil]
  have hsc : ∀ s' : List Char,
      List.takeWhile Char.isDigit (s' ++ cy :: ry) = List.takeWhile Char.isDigit s' ∧
      List.dropWhile Char.isDigit (s' ++ cy :: ry) =
        List.dropWhile Char.isDigit s' ++ cy :: ry :=
    fun s' => scan_stop (fun _ => Or.inr ⟨cy, ry, rfl, hyd⟩)
  unfold expPart at h
  split at h
  · rename_i e r
    split at h
    · rename_i hcond
      split at h
      · rename_i c2 r2
        split at h
        · rename_i hsign
          simp only at h
          split at h
          · rename_i hes
            cases h
            rw [List.cons_append, List.cons_append]
            unfold expPart
            dsimp only
            rw [if_pos hcond]
            rw [if_pos hsign, (hsc r2).1, if_pos hes]
          · rename_i hes
            cases h
            rw [List.cons_append, List.cons_append]
            unfold expPart
            dsimp only
            rw [if_pos hcond]
            rw [if_pos hsign, (hsc r2).1, if_neg hes, (hsc r2).2]
        · rename_i hsign
          simp only at h
          split at h
          · rename_i hes
            cases h
            rw [List.cons_append, List.cons_append]
            unfold expPart
            dsimp only
            rw [if_pos hcond]
            rw [if_neg hsign]
            have hr : c2 :: (r2 ++ cy :: ry) = (c2 :: r2) ++ cy :: ry := by
              rw [List.cons_append]
            rw [hr, (hsc (c2 :: r2)).1, if_pos hes]
          · rename_i hes
            cases h
            rw [List.cons_append, List.cons_append]
            unfold expPart
            dsimp only
            rw [if_pos hcond]
            rw [if_neg hsign]
            have hr : c2 :: (r2 ++ cy :: ry) = (c2 :: r2) ++ cy :: ry := by
              rw [List.cons_append]
            rw [hr, (hsc (c2 :: r2)).1, if_neg hes, (hsc (c2 :: r2)).2]
      · cases h
        rw [List.cons_append, List.nil_append]
        unfold expPart
        dsimp only
        rw [if_pos hcond]
        rw [if_neg (by simp [hyp, hym])]
        have htk : List.takeWhile Char.isDigit (cy :: ry) = [] := by
          rw [List.takeWhile_cons, if_neg (by rw [hyd]; exact Bool.false_ne_true)]
        rw [htk]
        exact if_pos rfl
    · rename_i hcond
      cases h
      rw [List.cons_append]
      unfold expPart
      dsimp only
      rw [if_neg hcond]
  · cases h
    rw [List.nil_append]
    exact expPart_not_exp (Or.inr ⟨cy, ry, rfl, hye, hyE⟩)

theorem expPart_inv {s tok rest : List Char} (h : expPart s = (tok, rest)) :
    s = tok ++ rest ∧
      (tok = [] ∨ ∃ (e : Char) (sg es : List Char), tok = e :: (sg ++ es) ∧
        (e = 'e' ∨ e = 'E') ∧ (sg = [] ∨ sg = ['+'] ∨ sg = ['-']) ∧ es ≠ [] ∧
        ∀ c ∈ es, c.isDigit = true) := by
  unfold expPart at h
  split at h
  · rename_i e r
    split at h
    · rename_i hcond
      split at h
      · rename_i c2 r2
        split at h
        · rename_i hsign
          simp only at h
          split at h
          · cases h
            exact ⟨(List.nil_append _).symm, Or.inl rfl⟩
          · rename_i hes
            cases h
            refine ⟨?_, Or.inr ⟨e, [c2], List.takeWhile Char.isDigit r2, rfl, ?_, ?_, ?_, ?_⟩⟩
            · rw [List.cons_append, List.cons_append, List.takeWhile_append_dropWhile]
            · simpa using hcond
            · have hsign2 : c2 = '+' ∨ c2 = '-' := by simpa using hsign
              rcases hsign2 with rfl | rfl
              · exact Or.inr (Or.inl rfl)
              · exact Or.inr (Or.inr rfl)
            · intro h0
              rw [h0] at hes
              exact hes rfl
            · exact fun c hc => List.mem_takeWhile_imp hc
        · rename_i hsign
          simp only at h
          split at h
          · cases h
            exact ⟨(List.nil_append _).symm, Or.inl rfl⟩
          · rename_i hes
            cases h
            refine ⟨?_,
              Or.inr ⟨e, [], List.takeWhile Char.isDigit (c2 :: r2), rfl, ?_, Or.inl rfl, ?_, ?_⟩⟩
            · rw [List.cons_append, List.takeWhile_append_dropWhile]
            · simpa using hcond
            · intro h0
              rw [h0] at hes
              exact hes rfl
            · exact fun c hc => List.mem_takeWhile_imp hc
      · cases h
        exact ⟨(List.nil_append _).symm, Or.inl rfl⟩
    · cases h
      exact ⟨(List.nil_append _).symm, Or.inl rfl⟩
  · cases h
    exact ⟨(List.nil_append _).symm, Or.inl rfl⟩

/-- Recomputing `expPart` on an exponent token followed by text that
does not start with a digit. -/
theorem expPart_token {e : Char} {sg es z : List Char}
    (he : e = 'e' ∨ e = 'E') (hsg : sg = [] ∨ sg = ['+'] ∨ sg = ['-'])
    (hes : es ≠ []) (hdig : ∀ c ∈ es, c.isDigit = true)
    (hz : z = [] ∨ ∃ c r, z = c :: r ∧ c.isDigit = false) :
    expPart ((e :: (sg ++ es)) ++ z) = (e :: (sg ++ es), z) := by
  have hscan : List.takeWhile Char.isDigit (es ++ z) = es ∧
      List.dropWhile Char.isDigit (es ++ z) = z := by
    have h2 := scan_stop (p := Char.isDigit) (s := es) (y := z)
      (fun _ => by
        rcases hz with rfl | ⟨c, r, rfl, hc⟩
        · exact Or.inl rfl
        · exact Or.inr ⟨c, r, rfl, hc⟩)
    have htf : List.takeWhile Char.isDigit es = es := by
      have h3 := List.takeWhile_append_dropWhile Char.isDigit es
      rw [List.dropWhile_eq_nil_iff.mpr hdig, List.append_nil] at h3
      exact h3
    have hdf : List.dropWhile Char.isDigit es = [] := List.dropWhile_eq_nil_iff.mpr hdig
    rw [h2.1, h2.2, htf, hdf, List.nil_append]
    exact ⟨rfl, rfl⟩
  have hcond : (decide (e = 'e') || decide (e = 'E')) = true := by
    rcases he with rfl | rfl <;> simp
  obtain ⟨a, l, rfl⟩ : ∃ a l, es = a :: l := by
    cases es with
    | nil => exact absurd rfl hes
    | cons a l => exact ⟨a, l, rfl⟩
  have hadig : a.isDigit = true := hdig a (List.mem_cons_self a l)
  have hr : a :: (l ++ z) = (a :: l) ++ z := by rw [List.cons_append]
  rcases hsg with rfl | rfl | rfl
  · simp only [List.cons_append, List.nil_append]
    unfold expPart
    dsimp only
    rw [if_pos hcond]
    have hnosign : ¬ (decide (a = '+') || decide (a = '-')) = true := by
      have h1 : ¬ a = '+' := fun h0 => by rw [h0] at hadig; cases hadig
      have h2 : ¬ a = '-' := fun h0 => by rw [h0] at hadig; cases hadig
      simp [h1, h2]
    rw [if_neg hnosign, hr, hscan.1, if_neg (by simp), hscan.2]
  · simp only [List.cons_append, List.nil_append]
    unfold expPart
    dsimp only
    rw [if_pos hcond]
    rw [if_pos (by simp), hr, hscan.1, if_neg (by simp), hscan.2]
  · simp only [List.cons_append, List.nil_append]
    unfold expPart
    dsimp only
    rw [if_pos hcond]
    rw [if_pos (by simp), hr, hscan.1, if_neg (by simp), hscan.2]

/-! ### Number-token lemmas -/

theorem intDigitsOk_ne_nil {ds : List Char} (h : intDigitsOk ds = true) : ds ≠ [] := by
  intro h0
  subst h0
  cases h

theorem endsNonWs_of_all_digits {l : List Char} (hne : l ≠ [])
    (h : ∀ c ∈ l, c.isDigit = true) : endsNonWs l := by
  induction l with
  | nil => exact absurd rfl hne
  | cons a l ih =>
    cases l with
    | nil => exact ⟨[], a, rfl, digit_not_pyWs (h a (List.mem_cons_self a []))⟩
    | cons b m =>
      obtain ⟨u, d, heq, hd⟩ :=
        ih (List.cons_ne_nil b m) (fun c hc => h c (List.mem_cons_of_mem a hc))
      exact ⟨a :: u, d, by rw [heq, ← List.cons_append], hd⟩

/-- The whitespace-safety condition of `scan_stop` obtained from a
number-safe appended text. -/
theorem numSafe_scan {y : List Char} (hy : numSafeHead y = true) (s : List Char) :
    List.takeWhile Char.isDigit (s ++ y) = List.takeWhile Char.isDigit s ∧
      List.dropWhile Char.isDigit (s ++ y) = List.dropWhile Char.isDigit s ++ y := by
  apply scan_stop
  intro _
  rcases numSafe_facts hy with rfl | ⟨c, r, rfl, hc, _⟩
  · exact Or.inl rfl
  · exact Or.inr ⟨c, r, rfl, hc⟩

theorem parseNumBody_ext {s y tok rest : List Char} (hy : numSafeHead y = true)
    (h : parseNumBody s = some (tok, rest)) :
    parseNumBody (s ++ y) = some (tok, rest ++ y) := by
  rcases hfr : fracPart (List.dropWhile Char.isDigit s) with ⟨ftok, frest⟩
  rcases hex : expPart frest with ⟨etok, erest⟩
  have hfr2 : fracPart (List.dropWhile Char.isDigit s ++ y) = (ftok, frest ++ y) :=
    fracPart_ext hy hfr
  have hex2 : expPart (frest ++ y) = (etok, erest ++ y) := expPart_ext hy hex
  unfold parseNumBody at h ⊢
  simp only at h ⊢
  rw [hfr, hex] at h
  rw [(numSafe_scan hy s).1, (numSafe_scan hy s).2, hfr2, hex2]
  split at h
  · rename_i hid
    cases h
    rw [if_pos hid]
  · cases h

theorem parseNumBody_decomp {s tok rest : List Char}
    (h : parseNumBody s = some (tok, rest)) :
    s = tok ++ rest ∧ parseNumBody tok = some (tok, []) ∧
      (∃ c cs, tok = c :: cs ∧ c.isDigit = true) ∧ endsNonWs tok := by
  rcases hfr : fracPart (List.dropWhile Char.isDigit s) with ⟨ftok, frest⟩
  rcases hex : expPart frest with ⟨etok, erest⟩
  unfold parseNumBody at h
  simp only at h
  rw [hfr, hex] at h
  split at h
  · rename_i hid
    cases h
    have htw_all : ∀ c ∈ List.takeWhile Char.isDigit s, c.isDigit = true :=
      fun c hc => List.mem_takeWhile_imp hc
    have htw_ne : List.takeWhile Char.isDigit s ≠ [] := intDigitsOk_ne_nil hid
    have hfr_inv := fracPart_inv hfr
    have hex_inv := expPart_inv hex
    have hsplit : s = (List.takeWhile Char.isDigit s ++ ftok ++ etok) ++ erest := by
      conv_lhs => rw [← List.takeWhile_append_dropWhile Char.isDigit s]
      rw [hfr_inv.1, hex_inv.1]
      simp [List.append_assoc]
    have hfhead : ftok ++ etok = [] ∨
        ∃ c r, ftok ++ etok = c :: r ∧ c.isDigit = false := by
      rcases hfr_inv.2 with rfl | ⟨fs, rfl, _, _⟩
      · rcases hex_inv.2 with rfl | ⟨e, sg, es, rfl, he, _, _, _⟩
        · exact Or.inl rfl
        · refine Or.inr ⟨e, sg ++ es, rfl, ?_⟩
          rcases he with rfl | rfl <;> rfl
      · exact Or.inr ⟨'.', fs ++ etok, by rw [List.cons_append], rfl⟩
    have hescan : List.takeWhile Char.isDigit
          (List.takeWhile Char.isDigit s ++ (ftok ++ etok)) =
          List.takeWhile Char.isDigit s ∧
        List.dropWhile Char.isDigit
          (List.takeWhile Char.isDigit s ++ (ftok ++ etok)) = ftok ++ etok := by
      have h2 := scan_stop (p := Char.isDigit) (s := List.takeWhile Char.isDigit s)
        (y := ftok ++ etok) (fun _ => hfhead)
      have htf : List.takeWhile Char.isDigit (List.takeWhile Char.isDigit s) =
          List.takeWhile Char.isDigit s := by
        have h3 := List.takeWhile_append_dropWhile Char.isDigit
          (List.takeWhile Char.isDigit s)
        rw [List.dropWhile_eq_nil_iff.mpr htw_all, List.append_nil] at h3
        exact h3
      rw [h2.1, h2.2, htf, List.dropWhile_eq_nil_iff.mpr htw_all, List.nil_append]
      exact ⟨rfl, rfl⟩
    have hehead : etok = [] ∨ ∃ c r, etok = c :: r ∧ c.isDigit = false := by
      rcases hex_inv.2 with rfl | ⟨e, sg, es, rfl, he, _, _, _⟩
      · exact Or.inl rfl
      · refine Or.inr ⟨e, sg ++ es, rfl, ?_⟩
        rcases he with rfl | rfl <;> rfl
    have hfrac_tok : fracPart (ftok ++ etok) = (ftok, etok) := by
      rcases hfr_inv.2 with rfl | ⟨fs, rfl, hfs_ne, hfs_dig⟩
      · rw [List.nil_append]
        apply fracPart_not_dot
        rcases hehead with rfl | ⟨c, r, rfl, _⟩
        · exact Or.inl rfl
        · refine Or.inr ⟨c, r, rfl, ?_⟩
          rcases hex_inv.2 with h0 | ⟨e, sg, es, heq, he, _, _, _⟩
          · cases h0
          · injection heq with h1 _
            subst h1
            rcases he with rfl | rfl <;> decide
      · exact fracPart_token hfs_ne hfs_dig hehead
    have hexp_tok : expPart etok = (etok, []) := by
      rcases hex_inv.2 with rfl | ⟨e, sg, es, rfl, he, hsg, hes_ne, hes_dig⟩
      · rfl
      · have h4 := expPart_token (z := []) he hsg hes_ne hes_dig (Or.inl rfl)
        rw [List.append_nil] at h4
        exact h4
    refine ⟨hsplit, ?_, ?_, ?_⟩
    · unfold parseNumBody
      simp only
      rw [List.append_assoc (List.takeWhile Char.isDigit s) ftok etok]
      rw [hescan.1, hescan.2, hfrac_tok, hexp_tok, if_pos hid]
      dsimp only
      rw [List.append_assoc]
    · obtain ⟨c, cs, hcc⟩ : ∃ c cs, List.takeWhile Char.isDigit s = c :: cs := by
        cases hcs : List.takeWhile Char.isDigit s with
        | nil => exact absurd hcs htw_ne
        | cons c cs => exact ⟨c, cs, rfl⟩
      refine ⟨c, cs ++ ftok ++ etok, ?_, ?_⟩
      · rw [hcc]
        simp [List.append_assoc]
      · exact htw_all c (by rw [hcc]; exact List.mem_cons_self c cs)
    · rcases hex_inv.2 with rfl | ⟨e, sg, es, rfl, _, _, hes_ne, hes_dig⟩
      · rw [List.append_nil]
        rcases hfr_inv.2 with rfl | ⟨fs, rfl, hfs_ne, hfs_dig⟩
        · rw [List.append_nil]
          exact endsNonWs_of_all_digits htw_ne htw_all
        · exact endsNonWs_append_left _
            (endsNonWs_append_left ['.'] (endsNonWs_of_all_digits hfs_ne hfs_dig))
      · refine endsNonWs_append_left _ ?_
        have h5 : endsNonWs es := endsNonWs_of_all_digits hes_ne hes_dig
        obtain ⟨u, d, hu, hd⟩ := h5
        exact ⟨e :: (sg ++ u), d, by rw [hu]; simp [List.append_assoc], hd⟩
  · cases h

theorem parseNumFrom_ext {s y tok rest : List Char} (hy : numSafeHead y = true)
    (h : parseNumFrom s = some (tok, rest)) :
    parseNumFrom (s ++ y) = some (tok, rest ++ y) := by
  unfold parseNumFrom at h
  split at h
  · rename_i r
    rw [List.cons_append]
    unfold parseNumFrom
    split at h
    · rename_i tok0 rest0 hbody
      cases h
      split
      · rename_i r2 heq
        injection heq with _ h2
        subst h2
        rw [parseNumBody_ext hy hbody]
      · rename_i hno2
        exact absurd rfl (hno2 (r ++ y))
    · cases h
  · rename_i hno
    have hd := parseNumBody_decomp h
    obtain ⟨c, cs, hcc, hcd⟩ := hd.2.2.1
    have hs : s = c :: (cs ++ rest) := by
      rw [hd.1, hcc, List.cons_append]
    have hcm : ¬ c = '-' := by
      intro h0
      rw [h0] at hcd
      cases hcd
    rw [hs, List.cons_append]
    unfold parseNumFrom
    split
    · rename_i r heq
      injection heq with h1 _
      exact absurd h1 hcm
    · have h2 := parseNumBody_ext hy h
      rw [hs, List.cons_append] at h2
      exact h2

theorem parseNumFrom_decomp {s tok rest : List Char}
    (h : parseNumFrom s = some (tok, rest)) :
    s = tok ++ rest ∧ parseNumFrom tok = some (tok, []) ∧
      (∃ c cs, tok = c :: cs ∧ (c = '-' ∨ c.isDigit = true)) ∧ endsNonWs tok := by
  unfold parseNumFrom at h
  split at h
  · rename_i r
    split at h
    · rename_i tok0 rest0 hbody
      cases h
      have hd := parseNumBody_decomp hbody
      refine ⟨?_, ?_, ⟨'-', tok0, rfl, Or.inl rfl⟩, ?_⟩
      · rw [List.cons_append, ← hd.1]
      · unfold parseNumFrom
        split
        · rename_i r2 heq
          injection heq with _ h2
          subst h2
          rw [hd.2.1]
        · rename_i hno2
          exact absurd rfl (hno2 tok0)
      · obtain ⟨u, d, hu, hdw⟩ := hd.2.2.2
        exact ⟨'-' :: u, d, by rw [hu, List.cons_append], hdw⟩
    · cases h
  · rename_i hno
    have hd := parseNumBody_decomp h
    obtain ⟨c, cs, hcc, hcd⟩ := hd.2.2.1
    have hcm : ¬ c = '-' := by
      intro h0
      rw [h0] at hcd
      cases hcd
    refine ⟨hd.1, ?_, ⟨c, cs, hcc, Or.inr hcd⟩, hd.2.2.2⟩
    rw [hcc]
    unfold parseNumFrom
    split
    · rename_i r heq
      injection heq with h1 _
      exact absurd h1 hcm
    · rw [← hcc]
      exact hd.2.1

/-! ### String-body parser lemmas -/

theorem parseStr_ext_fuel (y : List Char) :
    ∀ (n : Nat) (s : List Char), s.length ≤ n → ∀ codes rest,
      parseStr s = some (codes, rest) → parseStr (s ++ y) = some (codes, rest ++ y) := by
  intro n
  induction n with
  | zero =>
    intro s hs codes rest h
    have hs0 : s = [] := List.eq_nil_of_length_eq_zero (Nat.le_zero.mp hs)
    subst hs0
    cases h
  | succ n ih =>
    intro s hs codes rest h
    cases s with
    | nil => cases h
    | cons c cs =>
      have hcs : cs.length ≤ n := by simpa using hs
      unfold parseStr at h
      split at h
      · -- c = '"'
        rename_i hq
        cases h
        subst hq
        rw [List.cons_append]
        unfold parseStr
        exact if_pos rfl
      · split at h
        · -- c = '\\'
          rename_i hq hb
          subst hb
          split at h
          · -- cs = []
            cases h
          · -- cs = e :: cs'
            rename_i e cs'
            have hcs' : cs'.length ≤ n := by
              simp only [List.length_cons] at hcs
              omega
            split at h
            · -- e = 'u'
              rename_i hu
              subst hu
              split at h
              · -- cs' = a :: b :: c2 :: d :: cs''
                rename_i a b c2 d cs''
                have hcs'' : cs''.length ≤ n := by
                  simp only [List.length_cons] at hcs'
                  omega
                split at h
                · -- all four hex digits
                  rename_i na nb nc nd hva hvb hvc hvd
                  split at h
                  · rename_i codes0 rest0 hrec
                    cases h
                    rw [List.cons_append, List.cons_append, List.cons_append,
                      List.cons_append, List.cons_append, List.cons_append]
                    unfold parseStr
                    rw [if_neg (by decide), if_pos rfl]
                    dsimp only
                    rw [if_pos rfl]
                    rw [hva, hvb, hvc, hvd]
                    dsimp only
                    rw [ih cs'' hcs'' _ _ hrec]
                  · cases h
                · cases h
              · cases h
            · -- e ≠ 'u'
              rename_i hu
              split at h
              · -- escCode e = some n0
                rename_i n0 hesc
                split at h
                · rename_i codes0 rest0 hrec
                  cases h
                  rw [List.cons_append, List.cons_append]
                  unfold parseStr
                  rw [if_neg (by decide), if_pos rfl]
                  dsimp only
                  rw [if_neg hu, hesc]
                  dsimp only
                  rw [ih cs' hcs' _ _ hrec]
                · cases h
              · cases h
        · -- c neither quote nor backslash
          rename_i hq hb
          split at h
          · -- control character: parse fails
            cases h
          · rename_i hctl
            split at h
            · rename_i codes0 rest0 hrec
              cases h
              rw [List.cons_append]
              unfold parseStr
              rw [if_neg hq, if_neg hb, if_neg hctl]
              rw [ih cs hcs _ _ hrec]
            · cases h

/-- A successful string-body parse splits the input into the consumed
part (ending at the closing quote) and the untouched remainder. -/
theorem parseStr_decomp :
    ∀ (n : Nat) (s : List Char), s.length ≤ n → ∀ codes rest,
      parseStr s = some (codes, rest) →
      ∃ con, s = con ++ rest ∧ parseStr con = some (codes, []) ∧ endsNonWs con := by
  intro n
  induction n with
  | zero =>
    intro s hs codes rest h
    have hs0 : s = [] := List.eq_nil_of_length_eq_zero (Nat.le_zero.mp hs)
    subst hs0
    cases h
  | succ n ih =>
    intro s hs codes rest h
    cases s with
    | nil => cases h
    | cons c cs =>
      have hcs : cs.length ≤ n := by simpa using hs
      unfold parseStr at h
      split at h
      · -- c = '"'
        rename_i hq
        cases h
        subst hq
        exact ⟨['\"'], rfl, rfl, ⟨[], '\"', rfl, by decide⟩⟩
      · split at h
        · -- c = '\\'
          rename_i hq hb
          subst hb
          split at h
          · -- cs = []
            cases h
          · -- cs = e :: cs'
            rename_i e cs'
            have hcs' : cs'.length ≤ n := by
              simp only [List.length_cons] at hcs
              omega
            split at h
            · -- e = 'u'
              rename_i hu
              subst hu
              split at h
              · -- cs' = a :: b :: c2 :: d :: cs''
                rename_i a b c2 d cs''
                have hcs'' : cs''.length ≤ n := by
                  simp only [List.length_cons] at hcs'
                  omega
                split at h
                · -- all four hex digits
                  rename_i na nb nc nd hva hvb hvc hvd
                  split at h
                  · rename_i codes0 rest0 hrec
                    obtain ⟨con0, hsp, hcon, hend⟩ := ih cs'' hcs'' _ _ hrec
                    cases h
                    refine ⟨'\\' :: 'u' :: a :: b :: c2 :: d :: con0, ?_, ?_, ?_⟩
                    · rw [hsp]
                      simp only [List.cons_append]
                    · unfold parseStr
                      rw [if_neg (by decide), if_pos rfl]
                      dsimp only
                      rw [if_pos rfl]
                      rw [hva, hvb, hvc, hvd]
                      dsimp only
                      rw [hcon]
                    · exact endsNonWs_append_left ['\\', 'u', a, b, c2, d] hend
                  · cases h
                · cases h
              · cases h
            · -- e ≠ 'u'
              rename_i hu
              split at h
              · -- escCode e = some n0
                rename_i n0 hesc
                split at h
                · rename_i codes0 rest0 hrec
                  obtain ⟨con0, hsp, hcon, hend⟩ := ih cs' hcs' _ _ hrec
                  cases h
                  refine ⟨'\\' :: e :: con0, ?_, ?_, ?_⟩
                  · rw [hsp]
                    simp only [List.cons_append]
                  · unfold parseStr
                    rw [if_neg (by decide), if_pos rfl]
                    dsimp only
                    rw [if_neg hu, hesc]
                    dsimp only
                    rw [hcon]
                  · exact endsNonWs_append_left ['\\', e] hend
                · cases h
              · cases h
        · -- c neither quote nor backslash
          rename_i hq hb
          split at h
          · -- control character: parse fails
            cases h
          · rename_i hctl
            split at h
            · rename_i codes0 rest0 hrec
              obtain ⟨con0, hsp, hcon, hend⟩ := ih cs hcs _ _ hrec
              cases h
              refine ⟨c :: con0, ?_, ?_, ?_⟩
              · rw [hsp]
                simp only [List.cons_append]
              · unfold parseStr
                rw [if_neg hq, if_neg hb, if_neg hctl]
                rw [hcon]
              · exact endsNonWs_append_left [c] hend
            · cases h

/-- A successful string-body parse leaves a remainder no longer than the
input. -/
theorem parseStr_len {s rest : List Char} {codes : List Nat}
    (h : parseStr s = some (codes, rest)) : rest.length ≤ s.length := by
  obtain ⟨con, hsp, -, -⟩ := parseStr_decomp s.length s le_rfl codes rest h
  rw [hsp, List.length_append]
  omega

/-! ### Small parser and whitespace helpers -/

/-- The combined parser always fails on empty input. -/
theorem parseMut_nil : ∀ (f : Nat) (req : PReq), parseMut f req [] = none := by
  intro f
  induction f with
  | zero => intro req; rfl
  | succ f ih =>
    intro req
    cases req with
    | val => rfl
    | elems =>
      unfold parseMut
      rw [ih PReq.val]
    | members => rfl

theorem jsonWs_not_numCont {c : Char} (h : isJsonWs c = true) : isNumCont c = false := by
  simp [isJsonWs] at h
  rcases h with ((h | h) | h) | h <;> subst h <;> decide

/-- Appended text made of JSON whitespace followed by a non-continuation
character cannot extend a number token. -/
theorem numSafeHead_ws_append {w : List Char} (hw : ∀ a ∈ w, isJsonWs a = true)
    {c : Char} (hc : isNumCont c = false) (z : List Char) :
    numSafeHead (w ++ c :: z) = true := by
  cases w with
  | nil =>
    show numSafeHead (c :: z) = true
    simp [numSafeHead, hc]
  | cons a w' =>
    have ha := hw a (List.mem_cons_self a w')
    show numSafeHead (a :: (w' ++ c :: z)) = true
    simp [numSafeHead, jsonWs_not_numCont ha]

theorem skipWs_of_headNonWs {con : List Char} (h : headNonWs con) :
    skipWs con = con := by
  obtain ⟨c, cs, rfl, hc⟩ := h
  exact skipWs_cons_of_neg _ (not_pyWs_not_jsonWs hc)

theorem skipWs_append_of_headNonWs {con : List Char} (h : headNonWs con)
    (y : List Char) : skipWs (con ++ y) = con ++ y := by
  obtain ⟨c, cs, rfl, hc⟩ := h
  rw [List.cons_append]
  exact skipWs_cons_of_neg _ (not_pyWs_not_jsonWs hc)

/-- Python `strip` on whitespace-padded text with a non-whitespace core
returns exactly the core. -/
theorem pyStrip_sandwich {w con rest : List Char}
    (hw : ∀ c ∈ w, isPyWs c = true) (hrest : ∀ c ∈ rest, isPyWs c = true)
    (hh : headNonWs con) (he : endsNonWs con) :
    pyStrip (w ++ (con ++ rest)) = con := by
  obtain ⟨c0, cs0, hc0, hc0w⟩ := hh
  obtain ⟨u, d, hud, hdw⟩ := he
  have h1 : lstrip (w ++ (con ++ rest)) = con ++ rest := by
    unfold lstrip
    rw [List.dropWhile_append, List.dropWhile_eq_nil_iff.mpr hw]
    simp only [List.isEmpty_nil, if_true]
    rw [hc0, List.cons_append,
      List.dropWhile_cons_of_neg (by rw [hc0w]; exact Bool.false_ne_true),
      ← List.cons_append, ← hc0]
  unfold pyStrip
  rw [h1, List.reverse_append, List.dropWhile_append,
    List.dropWhile_eq_nil_iff.mpr (fun c hc => hrest c (List.mem_reverse.mp hc))]
  simp only [List.isEmpty_nil, if_true]
  rw [hud, List.reverse_append, List.reverse_singleton, List.singleton_append,
    List.dropWhile_cons_of_neg (by rw [hdw]; exact Bool.false_ne_true),
    List.reverse_cons, List.reverse_reverse]

/-- Python `strip` leaves a text with non-whitespace first and last
characters unchanged. -/
theorem pyStrip_eq_self {con : List Char} (hh : headNonWs con)
    (he : endsNonWs con) : pyStrip con = con := by
  have h := @pyStrip_sandwich [] con [] (fun c hc => absurd hc
    (List.not_mem_nil c)) (fun c hc => absurd hc (List.not_mem_nil c)) hh he
  rw [List.nil_append, List.append_nil] at h
  exact h

/-- A mini inversion: a successful signed-number parse starting at a minus
sign has a digit right after the sign. -/
theorem parseNumFrom_neg_head {r tok rest : List Char}
    (h : parseNumFrom ('-' :: r) = some (tok, rest)) :
    ∃ ch cs, r = ch :: cs ∧ ch.isDigit = true := by
  unfold parseNumFrom at h
  split at h
  · rename_i r' heq
    injection heq with _ heqr
    subst heqr
    split at h
    · rename_i tok0 rest0 hbody
      obtain ⟨hsp, -, ⟨ch, cs, hcc, hcd⟩, -⟩ := parseNumBody_decomp hbody
      exact ⟨ch, cs ++ rest0, by rw [hsp, hcc, List.cons_append], hcd⟩
    · cases h
  · rename_i hno
    exact absurd rfl (hno r)

/-- Appending number-safe text after a successfully parsed value extends
the remainder and changes nothing else (any fixed fuel). -/
theorem parseMut_ext {y : List Char} (hy : numSafeHead y = true) :
    ∀ (f : Nat) (req : PReq) (s : List Char) (res : PRes) (rest : List Char),
      parseMut f req s = some (res, rest) →
      parseMut f req (s ++ y) = some (res, rest ++ y) := by
  intro f
  induction f with
  | zero => intro req s res rest h; cases h
  | succ f ih =>
    intro req s res rest h
    cases req with
    | val =>
      cases s with
      | nil => cases h
      | cons c r =>
        rw [List.cons_append]
        unfold parseMut at h ⊢
        dsimp only at h ⊢
        by_cases h1 : c = 'n'
        · rw [if_pos h1] at h ⊢
          obtain ⟨u, hru, hres⟩ := expectLit_eq_some h
          injection hres with hres1 hres2
          subst hres1
          subst hres2
          rw [hru, List.append_assoc]
          exact expectLit_of_append _ _ _
        rw [if_neg h1] at h ⊢
        by_cases h2 : c = 't'
        · rw [if_pos h2] at h ⊢
          obtain ⟨u, hru, hres⟩ := expectLit_eq_some h
          injection hres with hres1 hres2
          subst hres1
          subst hres2
          rw [hru, List.append_assoc]
          exact expectLit_of_append _ _ _
        rw [if_neg h2] at h ⊢
        by_cases h3 : c = 'f'
        · rw [if_pos h3] at h ⊢
          obtain ⟨u, hru, hres⟩ := expectLit_eq_some h
          injection hres with hres1 hres2
          subst hres1
          subst hres2
          rw [hru, List.append_assoc]
          exact expectLit_of_append _ _ _
        rw [if_neg h3] at h ⊢
        by_cases h4 : c = 'N'
        · rw [if_pos h4] at h ⊢
          obtain ⟨u, hru, hres⟩ := expectLit_eq_some h
          injection hres with hres1 hres2
          subst hres1
          subst hres2
          rw [hru, List.append_assoc]
          exact expectLit_of_append _ _ _
        rw [if_neg h4] at h ⊢
        by_cases h5 : c = 'I'
        · rw [if_pos h5] at h ⊢
          obtain ⟨u, hru, hres⟩ := expectLit_eq_some h
          injection hres with hres1 hres2
          subst hres1
          subst hres2
          rw [hru, List.append_assoc]
          exact expectLit_of_append _ _ _
        rw [if_neg h5] at h ⊢
        by_cases h6 : c = '\"'
        · rw [if_pos h6] at h ⊢
          split at h
          · rename_i codes rest1 hstr
            cases h
            rw [parseStr_ext_fuel y r.length r le_rfl _ _ hstr]
          · cases h
        rw [if_neg h6] at h ⊢
        by_cases h7 : c = '\x7b'
        · rw [if_pos h7] at h ⊢
          rcases hsw : skipWs r with _ | ⟨d, r2⟩
          · rw [hsw] at h
            dsimp only at h
            rw [parseMut_nil] at h
            dsimp only at h
            cases h
          · rw [hsw] at h
            rw [skipWs_append_of_cons hsw]
            by_cases hd : d = '\x7d'
            · subst hd
              split at h
              · rename_i r2' heq
                injection heq with _ heq2
                subst heq2
                cases h
                rfl
              · rename_i hno
                exact absurd rfl (hno r2)
            · split at h
              · rename_i r2' heq
                injection heq with heq1 _
                exact absurd heq1 hd
              · split at h
                · rename_i xs rest' hrec
                  cases h
                  split
                  · rename_i r2'' heq
                    injection heq with heq1 _
                    exact absurd heq1 hd
                  · have h2 := ih PReq.members (d :: r2) _ _ hrec
                    rw [List.cons_append] at h2
                    rw [h2]
                · cases h
        rw [if_neg h7] at h ⊢
        by_cases h8 : c = '['
        · rw [if_pos h8] at h ⊢
          rcases hsw : skipWs r with _ | ⟨d, r2⟩
          · rw [hsw] at h
            dsimp only at h
            rw [parseMut_nil] at h
            dsimp only at h
            cases h
          · rw [hsw] at h
            rw [skipWs_append_of_cons hsw]
            by_cases hd : d = ']'
            · subst hd
              split at h
              · rename_i r2' heq
                injection heq with _ heq2
                subst heq2
                cases h
                rfl
              · rename_i hno
                exact absurd rfl (hno r2)
            · split at h
              · rename_i r2' heq
                injection heq with heq1 _
                exact absurd heq1 hd
              · split at h
                · rename_i xs rest' hrec
                  cases h
                  split
                  · rename_i r2'' heq
                    injection heq with heq1 _
                    exact absurd heq1 hd
                  · have h2 := ih PReq.elems (d :: r2) _ _ hrec
                    rw [List.cons_append] at h2
                    rw [h2]
                · cases h
        rw [if_neg h8] at h ⊢
        by_cases h9 : c = '-'
        · rw [if_pos h9] at h ⊢
          by_cases hI : leadsWith ('I' :: infTail) r = true
          · rw [if_pos hI] at h
            cases h
            obtain ⟨u, hu⟩ := (leadsWith_iff _ _).mp hI
            have hI2 : leadsWith ('I' :: infTail) (r ++ y) = true :=
              (leadsWith_iff _ _).mpr ⟨u ++ y, by rw [← List.append_assoc, hu]⟩
            rw [if_pos hI2]
            have hlen : 8 ≤ r.length := by
              rw [← hu, List.length_append]
              simp [infTail]
            rw [List.drop_append_of_le_length hlen]
          · rw [if_neg hI] at h
            subst h9
            split at h
            · rename_i tok rest' hnum
              cases h
              obtain ⟨ch, cs, hre, hchd⟩ := parseNumFrom_neg_head hnum
              have hI3 : leadsWith ('I' :: infTail) (r ++ y) = false := by
                cases hlw : leadsWith ('I' :: infTail) (r ++ y) with
                | false => rfl
                | true =>
                  have hp := (leadsWith_iff _ _).mp hlw
                  rw [hre, List.cons_append] at hp
                  obtain ⟨hIc, -⟩ := ( List.cons_prefix_cons).mp hp
                  rw [← hIc] at hchd
                  exact absurd hchd (by decide)
              rw [if_neg (by rw [hI3]; exact Bool.false_ne_true)]
              have hext := parseNumFrom_ext hy hnum
              rw [List.cons_append] at hext
              rw [hext]
            · cases h
        rw [if_neg h9] at h ⊢
        split at h
        · rename_i tok rest' hnum
          cases h
          have hext := parseNumFrom_ext hy hnum
          rw [List.cons_append] at hext
          rw [hext]
        · cases h
    | elems =>
      unfold parseMut at h ⊢
      split at h
      · rename_i x r hval
        have hv2 := ih PReq.val s _ _ hval
        rw [hv2]
        dsimp only
        split at h
        · rename_i r2 heq
          rw [skipWs_append_of_cons heq]
          split at h
          · rename_i xs rest' hrec
            cases h
            rcases hsw2 : skipWs r2 with _ | ⟨d, r3⟩
            · rw [hsw2, parseMut_nil] at hrec
              cases hrec
            · have hia := ih PReq.elems (skipWs r2) _ _ hrec
              rw [hsw2, List.cons_append] at hia
              split
              · rename_i r2' heq2
                injection heq2 with _ heq3
                subst heq3
                rw [skipWs_append_of_cons hsw2, hia]
              · rename_i r2' heq2
                injection heq2 with heq3 _
                exact absurd heq3 (by decide)
              · rename_i hno1 hno2
                exact absurd rfl (hno1 (r2 ++ y))
          · cases h
        · rename_i r2 heq
          rw [skipWs_append_of_cons heq]
          cases h
          split
          · rename_i r2' heq2
            injection heq2 with heq3 _
            exact absurd heq3 (by decide)
          · rename_i r2' heq2
            injection heq2 with _ heq3
            subst heq3
            rfl
          · rename_i hno1 hno2
            exact absurd rfl (hno2 _)
        · rename_i hno1 hno2
          cases h
      · cases h
    | members =>
      cases s with
      | nil => cases h
      | cons c r =>
        rw [List.cons_append]
        unfold parseMut at h ⊢
        split at h
        · rename_i r' heq
          injection heq with heqc heqr
          subst heqc
          subst heqr
          split
          · rename_i r'' heq2
            injection heq2 with _ heq3
            subst heq3
            split at h
            · rename_i key r1 hstr
              rw [parseStr_ext_fuel y r.length r le_rfl _ _ hstr]
              dsimp only
              split at h
              · rename_i r2 heqc2
                rw [skipWs_append_of_cons heqc2]
                split
                · rename_i r2' heq4
                  injection heq4 with _ heq5
                  subst heq5
                  rcases hsw : skipWs r2 with _ | ⟨d, r3⟩
                  · rw [hsw, parseMut_nil] at h
                    dsimp only at h
                    cases h
                  · rw [hsw] at h
                    split at h
                    · rename_i x r3' hval
                      have hival := ih PReq.val (d :: r3) _ _ hval
                      rw [List.cons_append] at hival
                      rw [skipWs_append_of_cons hsw, hival]
                      dsimp only
                      split at h
                      · rename_i r4 heqc3
                        rw [skipWs_append_of_cons heqc3]
                        split at h
                        · rename_i xs rest' hrec
                          cases h
                          rcases hsw4 : skipWs r4 with _ | ⟨e, r5⟩
                          · rw [hsw4, parseMut_nil] at hrec
                            cases hrec
                          · have hia := ih PReq.members (skipWs r4) _ _ hrec
                            rw [hsw4, List.cons_append] at hia
                            split
                            · rename_i r4' heq6
                              injection heq6 with _ heq7
                              subst heq7
                              rw [skipWs_append_of_cons hsw4, hia]
                            · rename_i r4' heq6
                              injection heq6 with heq7 _
                              exact absurd heq7 (by decide)
                            · rename_i hno1 hno2
                              exact absurd rfl (hno1 (r4 ++ y))
                        · cases h
                      · rename_i r4 heqc3
                        rw [skipWs_append_of_cons heqc3]
                        cases h
                        split
                        · rename_i r4' heq6
                          injection heq6 with heq7 _
                          exact absurd heq7 (by decide)
                        · rename_i r4' heq6
                          injection heq6 with _ heq7
                          subst heq7
                          rfl
                        · rename_i hno1 hno2
                          exact absurd rfl (hno2 _)
                      · rename_i hno1 hno2
                        cases h
                    · cases h
                · rename_i hno1
                  exact absurd rfl (hno1 (r2 ++ y))
              · rename_i hno1
                cases h
            · cases h
          · rename_i hno1
            exact absurd rfl (hno1 (r ++ y))
        · cases h

theorem skipWs_len (s : List Char) : (skipWs s).length ≤ s.length :=
  (List.dropWhile_suffix isJsonWs).length_le

/-- A successful parse consumes at least one character. -/
theorem parseMut_consume :
    ∀ (f : Nat) (req : PReq) (s : List Char) (res : PRes) (rest : List Char),
      parseMut f req s = some (res, rest) → rest.length < s.length := by
  intro f
  induction f with
  | zero => intro req s res rest h; cases h
  | succ f ih =>
    intro req s res rest h
    cases req with
    | val =>
      cases s with
      | nil => cases h
      | cons c r =>
        unfold parseMut at h
        dsimp only at h
        by_cases h1 : c = 'n'
        · rw [if_pos h1] at h
          obtain ⟨u, hru, hres⟩ := expectLit_eq_some h
          injection hres with hres1 hres2
          subst hres1
          subst hres2
          have hl := congrArg List.length hru
          simp only [List.length_append, List.length_cons, List.length_nil] at hl
          simp only [List.length_cons]
          omega
        rw [if_neg h1] at h
        by_cases h2 : c = 't'
        · rw [if_pos h2] at h
          obtain ⟨u, hru, hres⟩ := expectLit_eq_some h
          injection hres with hres1 hres2
          subst hres1
          subst hres2
          have hl := congrArg List.length hru
          simp only [List.length_append, List.length_cons, List.length_nil] at hl
          simp only [List.length_cons]
          omega
        rw [if_neg h2] at h
        by_cases h3 : c = 'f'
        · rw [if_pos h3] at h
          obtain ⟨u, hru, hres⟩ := expectLit_eq_some h
          injection hres with hres1 hres2
          subst hres1
          subst hres2
          have hl := congrArg List.length hru
          simp only [List.length_append, List.length_cons, List.length_nil] at hl
          simp only [List.length_cons]
          omega
        rw [if_neg h3] at h
        by_cases h4 : c = 'N'
        · rw [if_pos h4] at h
          obtain ⟨u, hru, hres⟩ := expectLit_eq_some h
          injection hres with hres1 hres2
          subst hres1
          subst hres2
          have hl := congrArg List.length hru
          simp only [List.length_append, List.length_cons, List.length_nil] at hl
          simp only [List.length_cons]
          omega
        rw [if_neg h4] at h
        by_cases h5 : c = 'I'
        · rw [if_pos h5] at h
          obtain ⟨u, hru, hres⟩ := expectLit_eq_some h
          injection hres with hres1 hres2
          subst hres1
          subst hres2
          have hl := congrArg List.length hru
          simp only [List.length_append, infTail, List.length_cons,
            List.length_nil] at hl
          simp only [List.length_cons]
          omega
        rw [if_neg h5] at h
        by_cases h6 : c = '\"'
        · rw [if_pos h6] at h
          split at h
          · rename_i codes rest1 hstr
            cases h
            have hs1 := parseStr_len hstr
            simp only [List.length_cons]
            omega
          · cases h
        rw [if_neg h6] at h
        by_cases h7 : c = '\x7b'
        · rw [if_pos h7] at h
          split at h
          · rename_i r2 heq
            cases h
            have l1 := skipWs_len r
            have l2 := congrArg List.length heq
            simp only [List.length_cons] at l2
            simp only [List.length_cons]
            omega
          · split at h
            · rename_i xs rest' hrec
              cases h
              have hm := ih PReq.members (skipWs r) _ _ hrec
              have l1 := skipWs_len r
              simp only [List.length_cons]
              omega
            · cases h
        rw [if_neg h7] at h
        by_cases h8 : c = '['
        · rw [if_pos h8] at h
          split at h
          · rename_i r2 heq
            cases h
            have l1 := skipWs_len r
            have l2 := congrArg List.length heq
            simp only [List.length_cons] at l2
            simp only [List.length_cons]
            omega
          · split at h
            · rename_i xs rest' hrec
              cases h
              have hm := ih PReq.elems (skipWs r) _ _ hrec
              have l1 := skipWs_len r
              simp only [List.length_cons]
              omega
            · cases h
        rw [if_neg h8] at h
        by_cases h9 : c = '-'
        · rw [if_pos h9] at h
          by_cases hI : leadsWith ('I' :: infTail) r = true
          · rw [if_pos hI] at h
            cases h
            have l1 := List.length_drop 8 r
            simp only [List.length_cons]
            omega
          · rw [if_neg hI] at h
            split at h
            · rename_i tok rest' hnum
              cases h
              obtain ⟨hsp, -, ⟨c0, cs0, hcc, -⟩, -⟩ := parseNumFrom_decomp hnum
              have hl := congrArg List.length hsp
              rw [hcc] at hl
              simp only [List.length_append, List.length_cons] at hl
              simp only [List.length_cons]
              omega
            · cases h
        rw [if_neg h9] at h
        split at h
        · rename_i tok rest' hnum
          cases h
          obtain ⟨hsp, -, ⟨c0, cs0, hcc, -⟩, -⟩ := parseNumFrom_decomp hnum
          have hl := congrArg List.length hsp
          rw [hcc] at hl
          simp only [List.length_append, List.length_cons] at hl
          simp only [List.length_cons]
          omega
        · cases h
    | elems =>
      unfold parseMut at h
      split at h
      · rename_i x r hval
        have hv := ih PReq.val s _ _ hval
        split at h
        · rename_i r2 heq
          split at h
          · rename_i xs rest' hrec
            cases h
            have h2 := ih PReq.elems (skipWs r2) _ _ hrec
            have l3 := skipWs_len r2
            have l4 := congrArg List.length heq
            have l5 := skipWs_len r
            simp only [List.length_cons] at l4
            omega
          · cases h
        · rename_i r2 heq
          cases h
          have l4 := congrArg List.length heq
          have l5 := skipWs_len r
          simp only [List.length_cons] at l4
          omega
        · cases h
      · cases h
    | members =>
      cases s with
      | nil => cases h
      | cons c r =>
        unfold parseMut at h
        split at h
        · rename_i r' heq
          injection heq with heqc heqr
          subst heqc
          subst heqr
          split at h
          · rename_i key r1 hstr
            have hs1 := parseStr_len hstr
            split at h
            · rename_i r2 heqc2
              split at h
              · rename_i x r3 hval
                have hv := ih PReq.val (skipWs r2) _ _ hval
                split at h
                · rename_i r4 heqc3
                  split at h
                  · rename_i xs rest' hrec
                    cases h
                    have hm := ih PReq.members (skipWs r4) _ _ hrec
                    have l1 := skipWs_len r1
                    have l2 := congrArg List.length heqc2
                    have l3 := skipWs_len r2
                    have l4 := congrArg List.length heqc3
                    have l5 := skipWs_len r3
                    have l6 := skipWs_len r4
                    simp only [List.length_cons] at l2 l4
                    simp only [List.length_cons]
                    omega
                  · cases h
                · rename_i r4 heqc3
                  cases h
                  have l1 := skipWs_len r1
                  have l2 := congrArg List.length heqc2
                  have l3 := skipWs_len r2
                  have l4 := congrArg List.length heqc3
                  have l5 := skipWs_len r3
                  simp only [List.length_cons] at l2 l4
                  simp only [List.length_cons]
                  omega
                · cases h
              · cases h
            · cases h
          · cases h
        · cases h

/-- Fuel that always suffices for the combined parser on an input of the
given length. -/
def fuelNeed : PReq → Nat → Nat
  | PReq.val, L => 2 * L + 2
  | PReq.elems, L => 2 * L + 3
  | PReq.members, L => 2 * L + 3

/-- A successful parse at any fuel also succeeds at any fuel at least the
canonical bound for the input length. -/
theorem parseMut_fuelfree :
    ∀ (f : Nat) (req : PReq) (s : List Char) (res : PRes) (rest : List Char),
      parseMut f req s = some (res, rest) →
      ∀ g, fuelNeed req s.length ≤ g → parseMut g req s = some (res, rest) := by
  intro f
  induction f with
  | zero => intro req s res rest h; cases h
  | succ f ih =>
    intro req s res rest h g hg
    cases g with
    | zero =>
      exfalso
      cases req <;> simp only [fuelNeed] at hg <;> omega
    | succ g' =>
      cases req with
      | val =>
        cases s with
        | nil => cases h
        | cons c r =>
          simp only [fuelNeed, List.length_cons] at hg
          unfold parseMut at h ⊢
          dsimp only at h ⊢
          by_cases h1 : c = 'n'
          · rw [if_pos h1] at h ⊢
            exact h
          rw [if_neg h1] at h ⊢
          by_cases h2 : c = 't'
          · rw [if_pos h2] at h ⊢
            exact h
          rw [if_neg h2] at h ⊢
          by_cases h3 : c = 'f'
          · rw [if_pos h3] at h ⊢
            exact h
          rw [if_neg h3] at h ⊢
          by_cases h4 : c = 'N'
          · rw [if_pos h4] at h ⊢
            exact h
          rw [if_neg h4] at h ⊢
          by_cases h5 : c = 'I'
          · rw [if_pos h5] at h ⊢
            exact h
          rw [if_neg h5] at h ⊢
          by_cases h6 : c = '\"'
          · rw [if_pos h6] at h ⊢
            exact h
          rw [if_neg h6] at h ⊢
          by_cases h7 : c = '\x7b'
          · rw [if_pos h7] at h ⊢
            rcases hsw : skipWs r with _ | ⟨d, r2⟩
            · rw [hsw] at h
              dsimp only at h
              rw [parseMut_nil] at h
              dsimp only at h
              cases h
            · have hlen : r2.length + 1 ≤ r.length := by
                have := skipWs_len r
                rw [hsw] at this
                simp only [List.length_cons] at this
                omega
              rw [hsw] at h
              split at h
              · exact h
              · split at h
                · rename_i xs rest' hrec
                  cases h
                  rw [ih PReq.members (d :: r2) _ _ hrec g' (by
                    simp only [fuelNeed, List.length_cons]
                    omega)]
                · cases h
          rw [if_neg h7] at h ⊢
          by_cases h8 : c = '['
          · rw [if_pos h8] at h ⊢
            rcases hsw : skipWs r with _ | ⟨d, r2⟩
            · rw [hsw] at h
              dsimp only at h
              rw [parseMut_nil] at h
              dsimp only at h
              cases h
            · have hlen : r2.length + 1 ≤ r.length := by
                have := skipWs_len r
                rw [hsw] at this
                simp only [List.length_cons] at this
                omega
              rw [hsw] at h
              split at h
              · exact h
              · split at h
                · rename_i xs rest' hrec
                  cases h
                  rw [ih PReq.elems (d :: r2) _ _ hrec g' (by
                    simp only [fuelNeed, List.length_cons]
                    omega)]
                · cases h
          rw [if_neg h8] at h ⊢
          by_cases h9 : c = '-'
          · rw [if_pos h9] at h ⊢
            exact h
          rw [if_neg h9] at h ⊢
          exact h
      | elems =>
        simp only [fuelNeed] at hg
        unfold parseMut at h ⊢
        split at h
        · rename_i x r hval
          have hcons := parseMut_consume f PReq.val s _ _ hval
          rw [ih PReq.val s _ _ hval g' (by simp only [fuelNeed]; omega)]
          dsimp only
          split at h
          · rename_i r2 heq
            split at h
            · rename_i xs rest' hrec
              cases h
              rcases hsw2 : skipWs r2 with _ | ⟨d, r3⟩
              · rw [hsw2, parseMut_nil] at hrec
                cases hrec
              · have hlr2 : r2.length + 1 ≤ r.length := by
                  have := skipWs_len r
                  rw [heq] at this
                  simp only [List.length_cons] at this
                  omega
                have hlr3 : r3.length + 1 ≤ r2.length := by
                  have := skipWs_len r2
                  rw [hsw2] at this
                  simp only [List.length_cons] at this
                  omega
                rw [hsw2] at hrec
                rw [ih PReq.elems (d :: r3) _ _ hrec g' (by
                  simp only [fuelNeed, List.length_cons]
                  omega)]
            · cases h
          · rename_i r2 heq
            exact h
          · cases h
        · cases h
      | members =>
        cases s with
        | nil => cases h
        | cons c r =>
          simp only [fuelNeed, List.length_cons] at hg
          unfold parseMut at h ⊢
          split at h
          · rename_i rx heqx
            injection heqx with heqc heqr
            subst heqc
            subst heqr
            split at h
            · rename_i key r1 hstr
              split at h
              · rename_i r2 heqc2
                rcases hsw : skipWs r2 with _ | ⟨d, r3⟩
                · rw [hsw, parseMut_nil] at h
                  dsimp only at h
                  cases h
                · rw [hsw] at h
                  split at h
                  · rename_i x r3' hval
                    have hcons := parseMut_consume f PReq.val (d :: r3) _ _ hval
                    simp only [List.length_cons] at hcons
                    have hlr1 := parseStr_len hstr
                    have hl2 : r2.length + 1 ≤ r1.length := by
                      have := skipWs_len r1
                      rw [heqc2] at this
                      simp only [List.length_cons] at this
                      omega
                    have hl3 : r3.length + 1 ≤ r2.length := by
                      have := skipWs_len r2
                      rw [hsw] at this
                      simp only [List.length_cons] at this
                      omega
                    rw [ih PReq.val (d :: r3) _ _ hval g' (by
                      simp only [fuelNeed, List.length_cons]
                      omega)]
                    dsimp only
                    split at h
                    · rename_i r4 heqc3
                      split at h
                      · rename_i xs rest' hrec
                        cases h
                        rcases hsw4 : skipWs r4 with _ | ⟨e, r5⟩
                        · rw [hsw4, parseMut_nil] at hrec
                          cases hrec
                        · have hl4 : r4.length + 1 ≤ r3'.length := by
                            have := skipWs_len r3'
                            rw [heqc3] at this
                            simp only [List.length_cons] at this
                            omega
                          have hl5 : r5.length + 1 ≤ r4.length := by
                            have := skipWs_len r4
                            rw [hsw4] at this
                            simp only [List.length_cons] at this
                            omega
                          rw [hsw4] at hrec
                          rw [ih PReq.members (e :: r5) _ _ hrec g' (by
                            simp only [fuelNeed, List.length_cons]
                            omega)]
                      · cases h
                    · rename_i r4 heqc3
                      exact h
                    · cases h
                  · cases h
              · cases h
            · cases h
          · cases h

/-- Splitting any text at the end of its leading JSON whitespace. -/
theorem skipWs_split (s : List Char) : s = s.takeWhile isJsonWs ++ skipWs s := by
  conv_lhs => rw [← List.takeWhile_append_dropWhile isJsonWs s]
  rfl

theorem takeWhile_ws_all (s : List Char) :
    ∀ a ∈ s.takeWhile isJsonWs, isJsonWs a = true :=
  fun _ ha => List.mem_takeWhile_imp ha

/-- A successful parse splits the input into a consumed part — replayable
on its own with the same fuel — and the untouched remainder. -/
theorem parseMut_decomp :
    ∀ (f : Nat) (req : PReq) (s : List Char) (res : PRes) (rest : List Char),
      parseMut f req s = some (res, rest) →
      ∃ con, s = con ++ rest ∧ headNonWs con ∧ endsNonWs con ∧
        parseMut f req con = some (res, []) := by
  intro f
  induction f with
  | zero => intro req s res rest h; cases h
  | succ f ih =>
    intro req s res rest h
    cases req with
    | val =>
      cases s with
      | nil => cases h
      | cons c r =>
        unfold parseMut at h
        dsimp only at h
        by_cases h1 : c = 'n'
        · rw [if_pos h1] at h
          subst h1
          obtain ⟨u, hru, hres⟩ := expectLit_eq_some h
          injection hres with hres1 hres2
          subst hres1
          subst hres2
          refine ⟨['n', 'u', 'l', 'l'], ?_, ⟨'n', _, rfl, by decide⟩,
            ⟨['n', 'u', 'l'], 'l', rfl, by decide⟩, ?_⟩
          · rw [hru]
            rfl
          · unfold parseMut
            dsimp only
            rw [if_pos rfl]
            have he := expectLit_of_append ['u', 'l', 'l'] J.null []
            rw [List.append_nil] at he
            exact he
        rw [if_neg h1] at h
        by_cases h2 : c = 't'
        · rw [if_pos h2] at h
          subst h2
          obtain ⟨u, hru, hres⟩ := expectLit_eq_some h
          injection hres with hres1 hres2
          subst hres1
          subst hres2
          refine ⟨['t', 'r', 'u', 'e'], ?_, ⟨'t', _, rfl, by decide⟩,
            ⟨['t', 'r', 'u'], 'e', rfl, by decide⟩, ?_⟩
          · rw [hru]
            rfl
          · unfold parseMut
            dsimp only
            rw [if_neg (by decide), if_pos rfl]
            have he := expectLit_of_append ['r', 'u', 'e'] (J.bool true) []
            rw [List.append_nil] at he
            exact he
        rw [if_neg h2] at h
        by_cases h3 : c = 'f'
        · rw [if_pos h3] at h
          subst h3
          obtain ⟨u, hru, hres⟩ := expectLit_eq_some h
          injection hres with hres1 hres2
          subst hres1
          subst hres2
          refine ⟨['f', 'a', 'l', 's', 'e'], ?_, ⟨'f', _, rfl, by decide⟩,
            ⟨['f', 'a', 'l', 's'], 'e', rfl, by decide⟩, ?_⟩
          · rw [hru]
            rfl
          · unfold parseMut
            dsimp only
            rw [if_neg (by decide), if_neg (by decide), if_pos rfl]
            have he := expectLit_of_append ['a', 'l', 's', 'e'] (J.bool false) []
            rw [List.append_nil] at he
            exact he
        rw [if_neg h3] at h
        by_cases h4 : c = 'N'
        · rw [if_pos h4] at h
          subst h4
          obtain ⟨u, hru, hres⟩ := expectLit_eq_some h
          injection hres with hres1 hres2
          subst hres1
          subst hres2
          refine ⟨['N', 'a', 'N'], ?_, ⟨'N', _, rfl, by decide⟩,
            ⟨['N', 'a'], 'N', rfl, by decide⟩, ?_⟩
          · rw [hru]
            rfl
          · unfold parseMut
            dsimp only
            rw [if_neg (by decide), if_neg (by decide), if_neg (by decide),
              if_pos rfl]
            have he := expectLit_of_append ['a', 'N'] (J.num ['N', 'a', 'N']) []
            rw [List.append_nil] at he
            exact he
        rw [if_neg h4] at h
        by_cases h5 : c = 'I'
        · rw [if_pos h5] at h
          subst h5
          obtain ⟨u, hru, hres⟩ := expectLit_eq_some h
          injection hres with hres1 hres2
          subst hres1
          subst hres2
          refine ⟨'I' :: infTail, ?_, ⟨'I', _, rfl, by decide⟩,
            ⟨'I' :: ['n', 'f', 'i', 'n', 'i', 't'], 'y', rfl, by decide⟩, ?_⟩
          · rw [hru]
            rfl
          · unfold parseMut
            dsimp only
            rw [if_neg (by decide), if_neg (by decide), if_neg (by decide),
              if_neg (by decide), if_pos rfl]
            have he := expectLit_of_append infTail (J.num ('I' :: infTail)) []
            rw [List.append_nil] at he
            exact he
        rw [if_neg h5] at h
        by_cases h6 : c = '\"'
        · rw [if_pos h6] at h
          subst h6
          split at h
          · rename_i codes rest1 hstr
            cases h
            obtain ⟨con0, hsp, hcon, hend⟩ := parseStr_decomp r.length r le_rfl _ _ hstr
            refine ⟨'\"' :: con0, ?_, ⟨'\"', con0, rfl, by decide⟩,
              endsNonWs_append_left ['\"'] hend, ?_⟩
            · rw [hsp]
              simp only [List.cons_append]
            · unfold parseMut
              dsimp only
              rw [if_neg (by decide), if_neg (by decide), if_neg (by decide),
                if_neg (by decide), if_neg (by decide), if_pos rfl, hcon]
          · cases h
        rw [if_neg h6] at h
        by_cases h7 : c = '\x7b'
        · rw [if_pos h7] at h
          subst h7
          rcases hsw : skipWs r with _ | ⟨d, r2⟩
          · rw [hsw] at h
            dsimp only at h
            rw [parseMut_nil] at h
            dsimp only at h
            cases h
          · have hrw := skipWs_split r
            rw [hsw] at hrw
            have hwall := takeWhile_ws_all r
            rw [hsw] at h
            by_cases hd : d = '\x7d'
            · subst hd
              split at h
              · rename_i r2' heq
                injection heq with _ heq2
                subst heq2
                cases h
                refine ⟨'\x7b' :: (r.takeWhile isJsonWs ++ ['\x7d']), ?_,
                  ⟨'\x7b', _, rfl, by decide⟩,
                  ⟨'\x7b' :: r.takeWhile isJsonWs, '\x7d',
                    by rw [List.cons_append], by decide⟩, ?_⟩
                · conv_lhs => rw [hrw]
                  simp only [List.cons_append, List.append_assoc, List.nil_append]
                · unfold parseMut
                  dsimp only
                  rw [if_neg (by decide), if_neg (by decide), if_neg (by decide),
                    if_neg (by decide), if_neg (by decide), if_neg (by decide),
                    if_pos rfl]
                  have hsk : skipWs (r.takeWhile isJsonWs ++ ['\x7d']) = ['\x7d'] := by
                    rw [skipWs_append_all_ws hwall]
                    rfl
                  rw [hsk]
                  rfl
              · rename_i hno
                exact (hno r2 rfl).elim
            · split at h
              · rename_i r2' heq
                injection heq with heq1 _
                exact absurd heq1 hd
              · split at h
                · rename_i xs rest' hrec
                  cases h
                  obtain ⟨con2, hsp2, hhead2, hend2, hcon2⟩ :=
                    ih PReq.members (d :: r2) _ _ hrec
                  refine ⟨'\x7b' :: (r.takeWhile isJsonWs ++ con2), ?_,
                    ⟨'\x7b', _, rfl, by decide⟩,
                    endsNonWs_append_left ('\x7b' :: r.takeWhile isJsonWs) hend2, ?_⟩
                  · conv_lhs => rw [hrw, hsp2]
                    simp only [List.cons_append, List.append_assoc, List.nil_append]
                  · unfold parseMut
                    dsimp only
                    rw [if_neg (by decide), if_neg (by decide), if_neg (by decide),
                      if_neg (by decide), if_neg (by decide), if_neg (by decide),
                      if_pos rfl]
                    have hsk : skipWs (r.takeWhile isJsonWs ++ con2) = con2 := by
                      rw [skipWs_append_all_ws hwall]
                      exact skipWs_of_headNonWs hhead2
                    rw [hsk]
                    split
                    · rw [List.cons_append] at hsp2
                      injection hsp2 with hx _
                      exact absurd hx hd
                    · rw [hcon2]
                · cases h
        rw [if_neg h7] at h
        by_cases h8 : c = '['
        · rw [if_pos h8] at h
          subst h8
          rcases hsw : skipWs r with _ | ⟨d, r2⟩
          · rw [hsw] at h
            dsimp only at h
            rw [parseMut_nil] at h
            dsimp only at h
            cases h
          · have hrw := skipWs_split r
            rw [hsw] at hrw
            have hwall := takeWhile_ws_all r
            rw [hsw] at h
            by_cases hd : d = ']'
            · subst hd
              split at h
              · rename_i r2' heq
                injection heq with _ heq2
                subst heq2
                cases h
                refine ⟨'[' :: (r.takeWhile isJsonWs ++ [']']), ?_,
                  ⟨'[', _, rfl, by decide⟩,
                  ⟨'[' :: r.takeWhile isJsonWs, ']',
                    by rw [List.cons_append], by decide⟩, ?_⟩
                · conv_lhs => rw [hrw]
                  simp only [List.cons_append, List.append_assoc, List.nil_append]
                · unfold parseMut
                  dsimp only
                  rw [if_neg (by decide), if_neg (by decide), if_neg (by decide),
                    if_neg (by decide), if_neg (by decide), if_neg (by decide),
                    if_neg (by decide), if_pos rfl]
                  have hsk : skipWs (r.takeWhile isJsonWs ++ [']']) = [']'] := by
                    rw [skipWs_append_all_ws hwall]
                    rfl
                  rw [hsk]
                  rfl
              · rename_i hno
                exact (hno r2 rfl).elim
            · split at h
              · rename_i r2' heq
                injection heq with heq1 _
                exact absurd heq1 hd
              · split at h
                · rename_i xs rest' hrec
                  cases h
                  obtain ⟨con2, hsp2, hhead2, hend2, hcon2⟩ :=
                    ih PReq.elems (d :: r2) _ _ hrec
                  refine ⟨'[' :: (r.takeWhile isJsonWs ++ con2), ?_,
                    ⟨'[', _, rfl, by decide⟩,
                    endsNonWs_append_left ('[' :: r.takeWhile isJsonWs) hend2, ?_⟩
                  · conv_lhs => rw [hrw, hsp2]
                    simp only [List.cons_append, List.append_assoc, List.nil_append]
                  · unfold parseMut
                    dsimp only
                    rw [if_neg (by decide), if_neg (by decide), if_neg (by decide),
                      if_neg (by decide), if_neg (by decide), if_neg (by decide),
                      if_neg (by decide), if_pos rfl]
                    have hsk : skipWs (r.takeWhile isJsonWs ++ con2) = con2 := by
                      rw [skipWs_append_all_ws hwall]
                      exact skipWs_of_headNonWs hhead2
                    rw [hsk]
                    split
                    · rw [List.cons_append] at hsp2
                      injection hsp2 with hx _
                      exact absurd hx hd
                    · rw [hcon2]
                · cases h
        rw [if_neg h8] at h
        by_cases h9 : c = '-'
        · rw [if_pos h9] at h
          subst h9
          by_cases hI : leadsWith ('I' :: infTail) r = true
          · rw [if_pos hI] at h
            cases h
            obtain ⟨u, hu⟩ := (leadsWith_iff _ _).mp hI
            have hd8 : r.drop 8 = u := by
              rw [← hu]
              exact List.drop_left ('I' :: infTail) u
            refine ⟨'-' :: 'I' :: infTail, ?_, ⟨'-', _, rfl, by decide⟩,
              ⟨'-' :: 'I' :: ['n', 'f', 'i', 'n', 'i', 't'], 'y', rfl, by decide⟩, ?_⟩
            · rw [hd8, ← hu]
              rfl
            · unfold parseMut
              dsimp only
              rw [if_neg (by decide), if_neg (by decide), if_neg (by decide),
                if_neg (by decide), if_neg (by decide), if_neg (by decide),
                if_neg (by decide), if_neg (by decide), if_pos rfl]
              rw [if_pos ((leadsWith_iff _ _).mpr List.prefix_rfl)]
              rfl
          · rw [if_neg hI] at h
            split at h
            · rename_i tok rest' hnum
              cases h
              obtain ⟨hsp, hself, ⟨c0, cs0, hcc, hcd⟩, hends⟩ := parseNumFrom_decomp hnum
              subst hcc
              have hc0 : c0 = '-' := by
                rw [List.cons_append] at hsp
                injection hsp with hx _
                exact hx.symm
              subst hc0
              obtain ⟨ch, csx, hcs0, hchd⟩ := parseNumFrom_neg_head hself
              refine ⟨'-' :: cs0, hsp, ⟨'-', cs0, rfl, by decide⟩, hends, ?_⟩
              unfold parseMut
              dsimp only
              rw [if_neg (by decide), if_neg (by decide), if_neg (by decide),
                if_neg (by decide), if_neg (by decide), if_neg (by decide),
                if_neg (by decide), if_neg (by decide), if_pos rfl]
              have hI3 : ¬ leadsWith ('I' :: infTail) cs0 = true := by
                intro hlw
                have hp := (leadsWith_iff _ _).mp hlw
                rw [hcs0] at hp
                obtain ⟨hIc, -⟩ := ( List.cons_prefix_cons).mp hp
                rw [← hIc] at hchd
                exact absurd hchd (by decide)
              rw [if_neg hI3, hself]
            · cases h
        rw [if_neg h9] at h
        split at h
        · rename_i tok rest' hnum
          cases h
          obtain ⟨hsp, hself, ⟨c0, cs0, hcc, hcd⟩, hends⟩ := parseNumFrom_decomp hnum
          subst hcc
          have hc0 : c0 = c := by
            rw [List.cons_append] at hsp
            injection hsp with hx _
            exact hx.symm
          subst hc0
          have hc0w : isPyWs c0 = false := by
            rcases hcd with hm | hdg
            · exact absurd hm h9
            · exact digit_not_pyWs hdg
          refine ⟨c0 :: cs0, hsp, ⟨c0, cs0, rfl, hc0w⟩, hends, ?_⟩
          unfold parseMut
          dsimp only
          rw [if_neg h1, if_neg h2, if_neg h3, if_neg h4, if_neg h5, if_neg h6,
            if_neg h7, if_neg h8, if_neg h9, hself]
        · cases h
    | elems =>
      unfold parseMut at h
      split at h
      · rename_i x r hval
        obtain ⟨con1, hsp1, hhead1, hend1, hcon1⟩ := ih PReq.val s _ _ hval
        split at h
        · rename_i r2 heq
          split at h
          · rename_i xs rest' hrec
            cases h
            obtain ⟨con2, hsp2, hhead2, hend2, hcon2⟩ :=
              ih PReq.elems (skipWs r2) _ _ hrec
            have hrw := skipWs_split r
            rw [heq] at hrw
            have hrw2 := skipWs_split r2
            rw [hsp2] at hrw2
            have hwall1 := takeWhile_ws_all r
            have hwall2 := takeWhile_ws_all r2
            refine ⟨con1 ++ (r.takeWhile isJsonWs ++ ',' ::
                (r2.takeWhile isJsonWs ++ con2)), ?_,
              headNonWs_append_right hhead1 _, ?_, ?_⟩
            · conv_lhs => rw [hsp1, hrw, hrw2]
              simp only [List.cons_append, List.append_assoc, List.nil_append]
            · exact endsNonWs_append_left con1 (endsNonWs_append_left _
                (endsNonWs_append_left [','] (endsNonWs_append_left _ hend2)))
            · unfold parseMut
              have hyY : numSafeHead (r.takeWhile isJsonWs ++ ',' ::
                  (r2.takeWhile isJsonWs ++ con2)) = true :=
                numSafeHead_ws_append hwall1 (by decide) _
              have hext := parseMut_ext hyY f PReq.val con1 _ _ hcon1
              rw [List.nil_append] at hext
              rw [hext]
              dsimp only
              have hskY : skipWs (r.takeWhile isJsonWs ++ ',' ::
                  (r2.takeWhile isJsonWs ++ con2)) = ',' ::
                  (r2.takeWhile isJsonWs ++ con2) := by
                rw [skipWs_append_all_ws hwall1]
                exact skipWs_cons_of_neg _ (by decide)
              rw [hskY]
              split
              · rename_i r2' heqg
                injection heqg with _ heqg2
                subst heqg2
                have hsk2 : skipWs (r2.takeWhile isJsonWs ++ con2) = con2 := by
                  rw [skipWs_append_all_ws hwall2]
                  exact skipWs_of_headNonWs hhead2
                rw [hsk2, hcon2]
              · rename_i r2' heqg
                injection heqg with heqg1 _
                exact absurd heqg1 (by decide)
              · rename_i hno1 hno2
                exact absurd rfl (hno1 _)
          · cases h
        · rename_i r2 heq
          cases h
          have hrw := skipWs_split r
          rw [heq] at hrw
          have hwall1 := takeWhile_ws_all r
          refine ⟨con1 ++ (r.takeWhile isJsonWs ++ [']']), ?_,
            headNonWs_append_right hhead1 _, ?_, ?_⟩
          · conv_lhs => rw [hsp1, hrw]
            simp only [List.cons_append, List.append_assoc, List.nil_append]
          · exact endsNonWs_append_left con1 (endsNonWs_append_left _
              ⟨[], ']', rfl, by decide⟩)
          · unfold parseMut
            have hyY : numSafeHead (r.takeWhile isJsonWs ++ [']']) = true :=
              numSafeHead_ws_append hwall1 (by decide) []
            have hext := parseMut_ext hyY f PReq.val con1 _ _ hcon1
            rw [List.nil_append] at hext
            rw [hext]
            dsimp only
            have hskY : skipWs (r.takeWhile isJsonWs ++ [']']) = [']'] := by
              rw [skipWs_append_all_ws hwall1]
              rfl
            rw [hskY]
            rfl
        · cases h
      · cases h
    | members =>
      cases s with
      | nil => cases h
      | cons c r =>
        unfold parseMut at h
        split at h
        · rename_i rx heqx
          injection heqx with heqc heqr
          subst heqc
          subst heqr
          split at h
          · rename_i key r1 hstr
            obtain ⟨conS, hspS, hconS, hendS⟩ :=
              parseStr_decomp r.length r le_rfl _ _ hstr
            split at h
            · rename_i r2 heqc2
              have hrw1 := skipWs_split r1
              rw [heqc2] at hrw1
              have hwall1 := takeWhile_ws_all r1
              rcases hsw : skipWs r2 with _ | ⟨d, r3⟩
              · rw [hsw, parseMut_nil] at h
                dsimp only at h
                cases h
              · rw [hsw] at h
                have hrw2 := skipWs_split r2
                rw [hsw] at hrw2
                have hwall2 := takeWhile_ws_all r2
                split at h
                · rename_i x r3' hval
                  obtain ⟨conV, hspV, hheadV, hendV, hconV⟩ :=
                    ih PReq.val (d :: r3) _ _ hval
                  split at h
                  · rename_i r4 heqc3
                    have hrw3 := skipWs_split r3'
                    rw [heqc3] at hrw3
                    have hwall3 := takeWhile_ws_all r3'
                    split at h
                    · rename_i xs rest' hrec
                      cases h
                      rcases hsw4 : skipWs r4 with _ | ⟨e, r5⟩
                      · rw [hsw4, parseMut_nil] at hrec
                        cases hrec
                      · rw [hsw4] at hrec
                        have hrw4 := skipWs_split r4
                        rw [hsw4] at hrw4
                        have hwall4 := takeWhile_ws_all r4
                        obtain ⟨conM, hspM, hheadM, hendM, hconM⟩ :=
                          ih PReq.members (e :: r5) _ _ hrec
                        refine ⟨'\"' :: (conS ++ (r1.takeWhile isJsonWs ++ ':' ::
                            (r2.takeWhile isJsonWs ++ (conV ++
                            (r3'.takeWhile isJsonWs ++ ',' ::
                            (r4.takeWhile isJsonWs ++ conM)))))), ?_,
                          ⟨'\"', _, rfl, by decide⟩, ?_, ?_⟩
                        · conv_lhs => rw [hspS, hrw1, hrw2, hspV, hrw3, hrw4, hspM]
                          simp only [List.cons_append, List.append_assoc, List.nil_append]
                        · exact endsNonWs_append_left ['\"'] (endsNonWs_append_left conS
                            (endsNonWs_append_left _ (endsNonWs_append_left [':']
                            (endsNonWs_append_left _ (endsNonWs_append_left conV
                            (endsNonWs_append_left _ (endsNonWs_append_left [',']
                            (endsNonWs_append_left _ hendM))))))))
                        · unfold parseMut
                          split
                          · rename_i rbig heqbig
                            injection heqbig with _ heqb2
                            subst heqb2
                            rw [parseStr_ext_fuel _ conS.length conS le_rfl _ _ hconS]
                            simp only [List.nil_append]
                            rw [skipWs_append_all_ws hwall1,
                              skipWs_cons_of_neg _ (by decide)]
                            split
                            · rename_i rr heqr2
                              injection heqr2 with _ heqr3
                              subst heqr3
                              rw [skipWs_append_all_ws hwall2,
                                skipWs_append_of_headNonWs hheadV]
                              have hyV : numSafeHead (r3'.takeWhile isJsonWs ++ ',' ::
                                  (r4.takeWhile isJsonWs ++ conM)) = true :=
                                numSafeHead_ws_append hwall3 (by decide) _
                              have hextV := parseMut_ext hyV f PReq.val conV _ _ hconV
                              rw [List.nil_append] at hextV
                              rw [hextV]
                              dsimp only
                              rw [skipWs_append_all_ws hwall3,
                                skipWs_cons_of_neg _ (by decide)]
                              split
                              · rename_i rr2 heqr4
                                injection heqr4 with _ heqr5
                                subst heqr5
                                rw [skipWs_append_all_ws hwall4,
                                  skipWs_of_headNonWs hheadM, hconM]
                              · rename_i rr2 heqr4
                                injection heqr4 with heqr5 _
                                exact absurd heqr5 (by decide)
                              · rename_i hno1 hno2
                                exact absurd rfl (hno1 _)
                            · rename_i hno1
                              exact absurd rfl (hno1 _)
                          · rename_i hno1
                            exact absurd rfl (hno1 _)
                    · cases h
                  · rename_i r4 heqc3
                    cases h
                    have hrw3 := skipWs_split r3'
                    rw [heqc3] at hrw3
                    have hwall3 := takeWhile_ws_all r3'
                    refine ⟨'\"' :: (conS ++ (r1.takeWhile isJsonWs ++ ':' ::
                        (r2.takeWhile isJsonWs ++ (conV ++
                        (r3'.takeWhile isJsonWs ++ ['\x7d']))))), ?_,
                      ⟨'\"', _, rfl, by decide⟩, ?_, ?_⟩
                    · conv_lhs => rw [hspS, hrw1, hrw2, hspV, hrw3]
                      simp only [List.cons_append, List.append_assoc, List.nil_append]
                    · exact endsNonWs_append_left ['\"'] (endsNonWs_append_left conS
                        (endsNonWs_append_left _ (endsNonWs_append_left [':']
                        (endsNonWs_append_left _ (endsNonWs_append_left conV
                        (endsNonWs_append_left _ ⟨[], '\x7d', rfl, by decide⟩))))))
                    · unfold parseMut
                      split
                      · rename_i rbig heqbig
                        injection heqbig with _ heqb2
                        subst heqb2
                        rw [parseStr_ext_fuel _ conS.length conS le_rfl _ _ hconS]
                        simp only [List.nil_append]
                        rw [skipWs_append_all_ws hwall1,
                          skipWs_cons_of_neg _ (by decide)]
                        split
                        · rename_i rr heqr2
                          injection heqr2 with _ heqr3
                          subst heqr3
                          rw [skipWs_append_all_ws hwall2,
                            skipWs_append_of_headNonWs hheadV]
                          have hyV : numSafeHead (r3'.takeWhile isJsonWs ++
                              ['\x7d']) = true :=
                            numSafeHead_ws_append hwall3 (by decide) []
                          have hextV := parseMut_ext hyV f PReq.val conV _ _ hconV
                          rw [List.nil_append] at hextV
                          rw [hextV]
                          dsimp only
                          have hskz : skipWs (r3'.takeWhile isJsonWs ++
                              ['\x7d']) = ['\x7d'] := by
                            rw [skipWs_append_all_ws hwall3]
                            rfl
                          rw [hskz]
                          rfl
                        · rename_i hno1
                          exact absurd rfl (hno1 _)
                      · rename_i hno1
                        exact absurd rfl (hno1 _)
                  · cases h
                · cases h
            · cases h
          · cases h
        · cases h

/-! ### json.loads versus stripping and whitespace wrapping -/

/-- Parsing is unchanged by Python stripping of the text. -/
theorem json_loads_strip {t : List Char} {v : J} (h : json_loads t = some v) :
    json_loads (pyStrip t) = some v := by
  unfold json_loads at h
  simp only at h
  split at h
  · rename_i x rest hpm
    split at h
    · rename_i hre
      cases h
      obtain ⟨con, hsp, hhead, hend, hcon⟩ :=
        parseMut_decomp _ PReq.val (skipWs t) _ _ hpm
      have hteq : t = t.takeWhile isJsonWs ++ (con ++ rest) := by
        conv_lhs => rw [skipWs_split t, hsp]
      rw [hteq, pyStrip_sandwich
        (fun c hc => jsonWs_pyWs (takeWhile_ws_all t c hc))
        (fun c hc => jsonWs_pyWs (skipWs_eq_nil_iff.mp hre c hc)) hhead hend]
      unfold json_loads
      simp only
      rw [skipWs_of_headNonWs hhead,
        parseMut_fuelfree _ PReq.val con _ _ hcon (2 * con.length + 2)
          (by simp [fuelNeed])]
      rfl
    · cases h
  · cases h

/-- Parsing is unchanged by surrounding the text with newlines. -/
theorem json_loads_wrap_nl {t : List Char} {v : J} (h : json_loads t = some v) :
    json_loads ('\n' :: (t ++ ['\n'])) = some v := by
  unfold json_loads at h
  simp only at h
  split at h
  · rename_i x rest hpm
    split at h
    · rename_i hre
      cases h
      obtain ⟨con, hsp, hhead, hend, hcon⟩ :=
        parseMut_decomp _ PReq.val (skipWs t) _ _ hpm
      have h1 : '\n' :: (t ++ ['\n']) =
          ('\n' :: t.takeWhile isJsonWs) ++ (con ++ (rest ++ ['\n'])) := by
        conv_lhs => rw [skipWs_split t, hsp]
        simp only [List.cons_append, List.append_assoc, List.nil_append]
      have hwsp : ∀ c ∈ ('\n' :: t.takeWhile isJsonWs), isJsonWs c = true := by
        intro c hc
        rcases List.mem_cons.mp hc with rfl | hc2
        · decide
        · exact takeWhile_ws_all t c hc2
      have hsw2 : skipWs ('\n' :: (t ++ ['\n'])) = con ++ (rest ++ ['\n']) := by
        rw [h1, skipWs_append_all_ws hwsp, skipWs_append_of_headNonWs hhead]
      unfold json_loads
      simp only
      rw [hsw2]
      have hyR : numSafeHead (rest ++ ['\n']) = true := by
        cases rest with
        | nil => decide
        | cons a l =>
          have ha : isJsonWs a = true :=
            skipWs_eq_nil_iff.mp hre a (List.mem_cons_self a l)
          show numSafeHead (a :: (l ++ ['\n'])) = true
          simp [numSafeHead, jsonWs_not_numCont ha]
      have hext := parseMut_ext hyR _ PReq.val con _ _ hcon
      rw [List.nil_append] at hext
      rw [parseMut_fuelfree _ PReq.val _ _ _ hext
        (2 * (con ++ (rest ++ ['\n'])).length + 2) (by simp [fuelNeed])]
      dsimp only
      have hz : skipWs (rest ++ ['\n']) = [] := by
        apply skipWs_eq_nil_iff.mpr
        intro c hc
        rcases List.mem_append.mp hc with hc1 | hc2
        · exact skipWs_eq_nil_iff.mp hre c hc1
        · rw [List.mem_singleton.mp hc2]
          decide
      rw [if_pos hz]
    · cases h
  · cases h

/-! ### Occurrence analysis for the fence markers -/

theorem prefix_append_cases {l x y : List Char} (h : l <+: x ++ y) :
    l <+: x ∨ ∃ l2, l = x ++ l2 ∧ l2 <+: y := by
  induction x generalizing l with
  | nil => exact Or.inr ⟨l, rfl, by simpa using h⟩
  | cons c x' ih =>
    cases l with
    | nil => exact Or.inl ( List.nil_prefix)
    | cons d l' =>
      rw [List.cons_append] at h
      obtain ⟨hdc, hl⟩ := ( List.cons_prefix_cons).mp h
      subst hdc
      rcases ih hl with h1 | ⟨l2, hl2, hp⟩
      · exact Or.inl (( List.cons_prefix_cons).mpr ⟨rfl, h1⟩)
      · exact Or.inr ⟨l2, by rw [hl2, List.cons_append], hp⟩

/-- Any occurrence of a pattern in an appended text lies in the left part,
in the right part, or straddles the boundary. -/
theorem infix_append_cases {pat : List Char} :
    ∀ (a b : List Char), pat <:+: a ++ b →
      pat <:+: a ∨ pat <:+: b ∨
        ∃ a2 b1, a2 <:+ a ∧ b1 <+: b ∧ a2 ≠ [] ∧ pat = a2 ++ b1 := by
  intro a
  induction a with
  | nil =>
    intro b h
    rw [List.nil_append] at h
    exact Or.inr (Or.inl h)
  | cons c a' ih =>
    intro b h
    rw [List.cons_append] at h
    rcases ( List.infix_cons_iff).mp h with hp | hi
    · cases pat with
      | nil => exact Or.inl ( List.nil_infix)
      | cons d p' =>
        obtain ⟨hdc, hl⟩ := ( List.cons_prefix_cons).mp hp
        subst hdc
        rcases prefix_append_cases hl with h1 | ⟨l2, hl2, hp2⟩
        · exact Or.inl (inside_of_lead (( List.cons_prefix_cons).mpr ⟨rfl, h1⟩))
        · refine Or.inr (Or.inr ⟨d :: a', l2, List.suffix_rfl, hp2,
            List.cons_ne_nil d a', ?_⟩)
          rw [hl2, List.cons_append]
    · rcases ih b hi with h1 | h2 | ⟨a2, b1, hs, hp2, hne, heq⟩
      · exact Or.inl ( List.infix_cons h1)
      · exact Or.inr (Or.inl h2)
      · exact Or.inr (Or.inr ⟨a2, b1, hs.trans (List.suffix_cons c a'), hp2,
          hne, heq⟩)

/-- A suffix of a text ending in a given character is empty or also ends
in that character. -/
theorem suffix_concat_cases {a2 w : List Char} {d : Char} (h : a2 <:+ w ++ [d]) :
    a2 = [] ∨ ∃ a2', a2 = a2' ++ [d] := by
  rcases List.eq_nil_or_concat a2 with rfl | ⟨a2', e, rfl⟩
  · exact Or.inl rfl
  · rw [List.concat_eq_append] at h ⊢
    obtain ⟨p, hp⟩ := h
    rw [← List.append_assoc] at hp
    have h2 := (List.append_inj' hp rfl).2
    injection h2 with he _
    subst he
    exact Or.inr ⟨a2', rfl⟩

/-- The stripped text is a contiguous segment of the original. -/
theorem pyStrip_inside (s : List Char) : pyStrip s <:+: s := by
  have h1 : lstrip s <:+ s := List.dropWhile_suffix _
  have hsuf : List.dropWhile isPyWs (lstrip s).reverse <:+ (lstrip s).reverse :=
    List.dropWhile_suffix _
  have h2 : pyStrip s <+: lstrip s := by
    apply List.reverse_suffix.mp
    unfold pyStrip
    rw [List.reverse_reverse]
    exact hsuf
  exact List.IsInfix.trans (inside_of_lead h2) h1.isInfix

/-- A fence-free text surrounded by newlines stays fence-free. -/
theorem fence3_not_in_wrapped_core {t : List Char} (hT : ¬ fence3 <:+: t) :
    ¬ fence3 <:+: ('\n' :: (t ++ ['\n'])) := by
  intro h
  rcases ( List.infix_cons_iff).mp h with hp | hi
  · obtain ⟨hc, -⟩ := ( List.cons_prefix_cons).mp hp
    exact absurd hc (by decide)
  · rcases infix_append_cases t ['\n'] hi with h1 | h2 | ⟨a2, b1, hs, hp2, hne, heq⟩
    · exact hT h1
    · have := h2.length_le
      simp [fence3] at this
    · cases b1 with
      | nil =>
        rw [List.append_nil] at heq
        subst heq
        exact hT hs.isInfix
      | cons bb bl =>
        obtain ⟨hb, hbl⟩ := ( List.cons_prefix_cons).mp hp2
        subst hb
        have hmem : '\n' ∈ fence3 := by
          rw [heq]
          exact List.mem_append.mpr (Or.inr (List.mem_cons_self _ _))
        simp [fence3, tick] at hmem

/-- No occurrence of the backtick-json marker survives inside the
newline-padded body and trailing fence of a wrapped clean text. -/
theorem fenceJson_not_in_wrapped {t : List Char} (hT : ¬ fence3 <:+: t) :
    ¬ fenceJson <:+: ('\n' :: (t ++ '\n' :: fence3)) := by
  intro h
  have h4 : [tick, tick, tick, 'j'] <:+: ('\n' :: (t ++ '\n' :: fence3)) :=
    List.IsInfix.trans (inside_of_lead (by decide)) h
  rcases ( List.infix_cons_iff).mp h4 with hp | hi
  · obtain ⟨hc, -⟩ := ( List.cons_prefix_cons).mp hp
    exact absurd hc (by decide)
  · rcases infix_append_cases t ('\n' :: fence3) hi with h1 | h2 |
      ⟨a2, b1, hs, hp2, hne, heq⟩
    · exact hT (List.IsInfix.trans (inside_of_lead (by decide)) h1)
    · have hsub := h2.sublist
      have heq4 := List.Sublist.eq_of_length hsub (by simp [fence3])
      injection heq4 with hh _
      exact absurd hh (by decide)
    · cases b1 with
      | nil =>
        rw [List.append_nil] at heq
        subst heq
        exact hT (List.IsInfix.trans (inside_of_lead (by decide)) hs.isInfix)
      | cons bb bl =>
        obtain ⟨hb, -⟩ := ( List.cons_prefix_cons).mp hp2
        subst hb
        have hmem : '\n' ∈ [tick, tick, tick, 'j'] := by
          rw [heq]
          exact List.mem_append.mpr (Or.inr (List.mem_cons_self _ _))
        simp [tick] at hmem

/-- The newline-padded body followed by two backticks contains no full
three-backtick marker. -/
theorem fence3_not_in_padded {t : List Char} (hT : ¬ fence3 <:+: t) :
    ¬ fence3 <:+: (('\n' :: (t ++ ['\n'])) ++ [tick, tick]) := by
  intro hi
  rcases infix_append_cases _ _ hi with h1 | h2 | ⟨a2, b1, hs, hp2, hne, heq⟩
  · exact fence3_not_in_wrapped_core hT h1
  · have := h2.length_le
    simp [fence3] at this
  · rcases suffix_concat_cases (show a2 <:+ ('\n' :: t) ++ ['\n'] from hs) with
      rfl | ⟨a2', rfl⟩
    · exact hne rfl
    · have hmem : '\n' ∈ fence3 := by
        rw [heq]
        exact List.mem_append.mpr (Or.inl (List.mem_append.mpr
          (Or.inr (List.mem_singleton_self _))))
      simp [fence3, tick] at hmem

/-- Removing the triple-backtick marker from a text that carries exactly
one occurrence, at its very end. -/
theorem replaceAll_trailing_fence :
    ∀ (u : List Char), ¬ fence3 <:+: (u ++ [tick, tick]) →
      replaceAll fence3 [] (u ++ fence3) = u := by
  intro u
  induction u with
  | nil =>
    intro _
    rw [List.nil_append]
    have h := replaceAll_head_occurrence fence3 [] [] (by decide)
    rw [List.append_nil] at h
    rw [h]
    rfl
  | cons c u' ih =>
    intro hu
    rw [List.cons_append, replaceAll_cons]
    have hlw : ¬ leadsWith fence3 (c :: (u' ++ fence3)) = true := by
      intro hl
      apply hu
      have hp := (leadsWith_iff _ _).mp hl
      obtain ⟨h1, hp2⟩ := ( List.cons_prefix_cons).mp hp
      subst h1
      cases u' with
      | nil => exact List.infix_rfl
      | cons c2 u'' =>
        rw [List.cons_append] at hp2
        obtain ⟨h2, hp3⟩ := ( List.cons_prefix_cons).mp hp2
        subst h2
        cases u'' with
        | nil => exact ⟨[], [tick], rfl⟩
        | cons c3 u3 =>
          rw [List.cons_append] at hp3
          obtain ⟨h3, -⟩ := ( List.cons_prefix_cons).mp hp3
          subst h3
          exact inside_of_lead (( List.cons_prefix_cons).mpr ⟨rfl,
            ( List.cons_prefix_cons).mpr ⟨rfl,
            ( List.cons_prefix_cons).mpr ⟨rfl, List.nil_prefix⟩⟩⟩)
    rw [if_neg hlw]
    have hu' : ¬ fence3 <:+: (u' ++ [tick, tick]) := fun hi =>
      hu ( List.infix_cons hi)
    rw [ih hu']

/-- C3: the Response Decoder is idempotent on already-clean JSON: for
every text that `json.loads` accepts and that contains no triple-backtick
code-fence marker, decoding the text itself and decoding the same text
wrapped in a triple-backtick `json` fence block both return the very same
parsed object. -/
theorem C3_decoder_idempotent_on_clean_json (t : List Char) (v : J)
    (hjson : json_loads t = some v) (hnofence : ¬ fence3 <:+: t) :
    decodeResponse t = some v ∧ decodeResponse (wrapFence t) = some v := by
  constructor
  · unfold decodeResponse cleanText
    have hnf : ¬ fence3 <:+: pyStrip t := fun hi =>
      hnofence (List.IsInfix.trans hi (pyStrip_inside t))
    have hnj : ¬ fenceJson <:+: pyStrip t := fun hi =>
      hnf (List.IsInfix.trans (inside_of_lead (List.prefix_append _ _)) hi)
    rw [replaceAll_of_no_occurrence _ _ _ hnj, replaceAll_of_no_occurrence _ _ _ hnf]
    exact json_loads_strip hjson
  · unfold decodeResponse cleanText wrapFence
    have hself : pyStrip (fenceJson ++ ('\n' :: (t ++ '\n' :: fence3))) =
        fenceJson ++ ('\n' :: (t ++ '\n' :: fence3)) := by
      apply pyStrip_eq_self
      · exact ⟨tick, _, rfl, by decide⟩
      · refine ⟨fenceJson ++ ('\n' :: (t ++ '\n' :: [tick, tick])), tick, ?_,
          by decide⟩
        simp [fenceJson, fence3, List.cons_append, List.append_assoc]
    rw [hself, replaceAll_head_occurrence fenceJson [] _ (by decide),
      List.nil_append,
      replaceAll_of_no_occurrence _ _ _ (fenceJson_not_in_wrapped hnofence)]
    have harr : '\n' :: (t ++ '\n' :: fence3) =
        ('\n' :: (t ++ ['\n'])) ++ fence3 := by
      simp [List.cons_append, List.append_assoc]
    rw [harr, replaceAll_trailing_fence _ (fence3_not_in_padded hnofence)]
    exact json_loads_wrap_nl hjson

/-- Witness for C3 on the clean JSON text `[1]`. -/
theorem C3_decoder_idempotent_on_clean_json_witness :
    (json_loads ['[', '1', ']'] = some (J.arr [J.num ['1']]) ∧
      ¬ fence3 <:+: ['[', '1', ']']) ∧
    decodeResponse ['[', '1', ']'] = some (J.arr [J.num ['1']]) ∧
    decodeResponse (wrapFence ['[', '1', ']']) = some (J.arr [J.num ['1']]) :=
  ⟨⟨rfl, by decide⟩,
    C3_decoder_idempotent_on_clean_json ['[', '1', ']'] (J.arr [J.num ['1']])
      rfl (by decide)⟩

end LetterAnalyzer
